import Mathlib

/-!
Verification of the `quantum_decomp` library: a shallow embedding of
`quantum_decomp_main.py` and `gate.py` over exact complex arithmetic.

Matrices are embedded as total functions `ℕ → ℕ → ℂ` together with an explicit
ambient dimension; floating-point tolerances in the source (`1e-9`) are kept as
exact real constants.  Python `assert` failures are embedded as `Except.error`.

The repository modules `two_level_unitary.py`, `gate2.py`, `optimize.py` and
`utils.py` are not part of the sources; the definitions taken from them are
modelled from the spec and are marked as such in their doc comments.
-/

open scoped Classical

namespace QuantumDecomp

/-- A complex matrix, given as a total function; the ambient dimension is
passed separately wherever it matters. -/
def Mat : Type := ℕ → ℕ → ℂ

/-- The tolerance `1e-9` used throughout the source. -/
noncomputable def tol : ℝ := 1e-9

/-- Matrix product of two `n × n` matrices. -/
noncomputable def matMul (n : ℕ) (A B : Mat) : Mat :=
  fun i j => ∑ k ∈ Finset.range n, A i k * B k j

/-- The identity matrix (on every dimension at once). -/
noncomputable def matId : Mat := fun i j => if i = j then 1 else 0

/-- Conjugate transpose. -/
noncomputable def conjTrans (A : Mat) : Mat := fun i j => starRingEnd ℂ (A j i)

/-- Equality of two matrices on the `n × n` window. -/
def eqOn (n : ℕ) (A B : Mat) : Prop := ∀ i < n, ∀ j < n, A i j = B i j

/-- Build a `2 × 2` matrix (zero outside the `2 × 2` window). -/
noncomputable def mat2 (a b c d : ℂ) : Mat := fun i j =>
  if i = 0 ∧ j = 0 then a
  else if i = 0 ∧ j = 1 then b
  else if i = 1 ∧ j = 0 then c
  else if i = 1 ∧ j = 1 then d
  else 0

/-- Product of two `2 × 2` matrices. -/
noncomputable def mat2Mul (u v : Mat) : Mat :=
  mat2 (u 0 0 * v 0 0 + u 0 1 * v 1 0) (u 0 0 * v 0 1 + u 0 1 * v 1 1)
       (u 1 0 * v 0 0 + u 1 1 * v 1 0) (u 1 0 * v 0 1 + u 1 1 * v 1 1)

/-- `PAULI_X` from `utils.py`. -/
noncomputable def PAULI_X : Mat := mat2 0 1 1 0

/-- Modelled from the spec: `is_unitary` from the missing `utils.py` — the
matrix is unitary (`U†U = I`) within tolerance `1e-9` (spec §3, §6). -/
noncomputable def is_unitary (n : ℕ) (A : Mat) : Prop :=
  ∀ i < n, ∀ j < n, Complex.abs (matMul n (conjTrans A) A i j - matId i j) ≤ tol

/-- Determinant of a `2 × 2` matrix. -/
noncomputable def det2 (A : Mat) : ℂ := A 0 0 * A 1 1 - A 0 1 * A 1 0

/-- Modelled from the spec: `is_special_unitary` from the missing `utils.py` —
unitary with determinant 1, within the same tolerance (spec §3). -/
noncomputable def is_special_unitary (A : Mat) : Prop :=
  is_unitary 2 A ∧ Complex.abs (det2 A - 1) ≤ tol

/-- Modelled from the spec: `is_power_of_two` from the missing `utils.py`. -/
def is_power_of_two (n : ℕ) : Prop := ∃ k, n = 2 ^ k

/-- Embedded failure modes: each constructor corresponds to one Python
`assert`/`raise` site reachable from the embedded functions. -/
inductive Err where
  | assertUnitary        -- `assert is_unitary(A)`
  | assertPow2           -- `assert is_power_of_two(N)`
  | assertSquare         -- `assert A.shape == (N, N)`
  | assertMagnitude      -- `assert (np.abs(a) > 1e-9 and np.abs(b) > 1e-9)`
  | assertSpecialUnitary -- `assert is_special_unitary(result)`
  | assertAngle          -- `assert np.allclose(np.angle(...), 0)`
  | assertZero           -- `assert (np.abs(...) < 1e-9)`
  | badTLU               -- TwoLevelUnitary constructor invariant
deriving DecidableEq, Repr

/-- `TwoLevelUnitary` from the missing `two_level_unitary.py`, modelled from
the spec (§2, §3): a `2 × 2` submatrix, the ambient dimension, and two basis
indices `i1 < i2`. -/
structure TwoLevelUnitary where
  sub : Mat
  dim : ℕ
  i1 : ℕ
  i2 : ℕ

/-- Modelled from the spec: checked constructor enforcing the data-model
invariant `i1 < i2 < dim` of `TwoLevelUnitary` (spec §3). -/
noncomputable def mkTLU (m : Mat) (dim i1 i2 : ℕ) : Except Err TwoLevelUnitary :=
  if i1 < i2 ∧ i2 < dim then .ok ⟨m, dim, i1, i2⟩ else .error .badTLU

/-- Sequencing of embedded fallible computations: propagate the first
assertion failure, otherwise continue. -/
def exCase {α β : Type} (x : Except Err α) (f : α → Except Err β) : Except Err β :=
  match x with
  | .error e => .error e
  | .ok a => f a

/-- Modelled from the spec: the full embedding of a `TwoLevelUnitary` equals
the identity except at rows/cols `{i1, i2}`, where it equals the submatrix
(spec §3). -/
noncomputable def TwoLevelUnitary.full (u : TwoLevelUnitary) : Mat := fun i j =>
  if i = u.i1 ∧ j = u.i1 then u.sub 0 0
  else if i = u.i1 ∧ j = u.i2 then u.sub 0 1
  else if i = u.i2 ∧ j = u.i1 then u.sub 1 0
  else if i = u.i2 ∧ j = u.i2 then u.sub 1 1
  else if i = j then 1 else 0

/-- Modelled from the spec: inversion of a `TwoLevelUnitary` (spec §2) — the
submatrix is replaced by its conjugate transpose (the inverse of a unitary),
the index pair is unchanged. -/
noncomputable def TwoLevelUnitary.inv (u : TwoLevelUnitary) : TwoLevelUnitary :=
  ⟨fun i j => starRingEnd ℂ (u.sub j i), u.dim, u.i1, u.i2⟩

/-- Modelled from the spec: `apply_permutation` maps the index pair of the
factor through the permutation (spec §4.2), restoring the invariant `i1 < i2`
by swapping the rows and columns of the submatrix when needed (spec §3). -/
noncomputable def TwoLevelUnitary.apply_permutation
    (u : TwoLevelUnitary) (f : ℕ → ℕ) : TwoLevelUnitary :=
  if f u.i1 ≤ f u.i2 then ⟨u.sub, u.dim, f u.i1, f u.i2⟩
  else ⟨fun i j => u.sub (1 - i) (1 - j), u.dim, f u.i2, f u.i1⟩

/-- The matrix value built by `make_eliminating_matrix` from
`theta = arctan |b/a|`, `lmbda = -arg a`, `mu = pi + arg b - arg a - lmbda`
(`quantum_decomp_main.py` lines 26–32). -/
noncomputable def eliminationMat (a b : ℂ) : Mat :=
  let theta : ℝ := Real.arctan (Complex.abs (b / a))
  let lmbda : ℝ := -(Complex.arg a)
  let mu : ℝ := Real.pi + Complex.arg b - Complex.arg a - lmbda
  mat2 ((Real.cos theta : ℂ) * Complex.exp (lmbda * Complex.I))
       ((Real.sin theta : ℂ) * Complex.exp (mu * Complex.I))
       (-((Real.sin theta : ℂ) * Complex.exp (-(mu * Complex.I))))
       ((Real.cos theta : ℂ) * Complex.exp (-(lmbda * Complex.I)))

/-- `make_eliminating_matrix(a, b)` — the inner function of
`two_level_decompose` (`quantum_decomp_main.py` lines 20–36), with each
`assert` embedded as an error case. -/
noncomputable def make_eliminating_matrix (a b : ℂ) : Except Err Mat :=
  if tol < Complex.abs a ∧ tol < Complex.abs b then
    if is_special_unitary (eliminationMat a b) then
      if |Complex.arg (eliminationMat a b 0 0 * a + eliminationMat a b 1 0 * b)| ≤ tol then
        if Complex.abs (eliminationMat a b 0 1 * a + eliminationMat a b 1 1 * b) < tol then
          .ok (eliminationMat a b)
        else .error .assertZero
      else .error .assertAngle
    else .error .assertSpecialUnitary
  else .error .assertMagnitude

/-- One step of the elimination sweep of `two_level_decompose`
(`quantum_decomp_main.py` lines 45–58): the state is the working matrix
together with the factors accumulated so far, `ij` is the current `(i, j)`. -/
noncomputable def elimStep (n : ℕ) (st : Mat × List TwoLevelUnitary) (ij : ℕ × ℕ) :
    Except Err (Mat × List TwoLevelUnitary) :=
  if Complex.abs (st.1 ij.1 ij.2) < tol then .ok st
  else
    exCase (if Complex.abs (st.1 ij.1 (ij.2 - 1)) < tol then .ok PAULI_X
            else make_eliminating_matrix (st.1 ij.1 (ij.2 - 1)) (st.1 ij.1 ij.2)) fun u2 =>
      exCase (mkTLU u2 n (ij.2 - 1) ij.2) fun t =>
        .ok (matMul n st.1 t.full, st.2 ++ [t.inv])

/-- Run the elimination sweep over a list of index pairs, stopping at the
first embedded assertion failure. -/
noncomputable def sweepRun (n : ℕ) :
    List (ℕ × ℕ) → Mat × List TwoLevelUnitary → Except Err (Mat × List TwoLevelUnitary)
  | [], st => .ok st
  | ij :: rest, st => exCase (elimStep n st ij) fun st' => sweepRun n rest st'

/-- The index pairs visited by the sweep of `two_level_decompose`: for each
`i` in `range (n-2)`, `j` runs from `n-1` down to `i+1`. -/
def sweepIndices (n : ℕ) : List (ℕ × ℕ) :=
  (List.range (n - 2)).flatMap fun i =>
    (List.range (n - 1 - i)).map fun k => (i, n - 1 - k)

/-- `two_level_decompose(A)` (`quantum_decomp_main.py` lines 10–62). -/
noncomputable def two_level_decompose (n : ℕ) (A : Mat) :
    Except Err (List TwoLevelUnitary) :=
  if is_unitary n A then
    exCase (sweepRun n (sweepIndices n) (A, [])) fun st =>
      exCase (mkTLU (fun r c => st.1 (n - 2 + r) (n - 2 + c)) n (n - 2) (n - 1)) fun t =>
        .ok (st.2 ++ [t])
  else .error .assertUnitary

/-- The Gray-code relabeling `x ↦ x XOR (x // 2)` (`quantum_decomp_main.py`
line 78). -/
def grayFn (x : ℕ) : ℕ := x ^^^ (x / 2)

/-- `two_level_decompose_gray(A)` (`quantum_decomp_main.py` lines 65–86); the
input carries its numpy shape so that the squareness assertion is
representable.  `P A Pᵀ` for the Gray permutation matrix `P` has entries
`A (grayFn i) (grayFn j)`. -/
noncomputable def two_level_decompose_gray (shape : ℕ × ℕ) (A : Mat) :
    Except Err (List TwoLevelUnitary) :=
  let N := shape.1
  if is_power_of_two N then
    if shape.2 = N then
      if is_unitary N A then
        exCase (two_level_decompose N (fun i j => A (grayFn i) (grayFn j))) fun l =>
          .ok (l.map (fun u => u.apply_permutation grayFn))
      else .error .assertUnitary
    else .error .assertSquare
  else .error .assertPow2

/-- `Gate2` from the missing `gate2.py`, modelled from the spec (§2, §3): an
elementary `2 × 2` gate given by a kind tag and a real angle.  The kind is a
string because the consuming code in `gate.py` and
`quantum_decomp_main.py` dispatches on `gate2.name` string values. -/
structure Gate2 where
  name : String
  arg : ℝ

/-- Modelled from the spec: the `2 × 2` matrix of a `Gate2`
(bit-flip / rotations / phase, standard quantum-computing conventions as fixed
by the renderers in the sources).  The vocabulary is closed (spec §3), so the
off-vocabulary fallback is never reached by the pipeline; it is modelled as
the identity. -/
noncomputable def Gate2.to_matrix (g : Gate2) : Mat :=
  if g.name = "X" then mat2 0 1 1 0
  else if g.name = "Rx" then
    mat2 (Real.cos (g.arg / 2) : ℂ) (-(Complex.I * (Real.sin (g.arg / 2) : ℂ)))
         (-(Complex.I * (Real.sin (g.arg / 2) : ℂ))) (Real.cos (g.arg / 2) : ℂ)
  else if g.name = "Ry" then
    mat2 (Real.cos (g.arg / 2) : ℂ) (-(Real.sin (g.arg / 2) : ℂ))
         (Real.sin (g.arg / 2) : ℂ) (Real.cos (g.arg / 2) : ℂ)
  else if g.name = "Rz" then
    mat2 (Complex.exp (-(g.arg / 2 : ℝ) * Complex.I)) 0
         0 (Complex.exp ((g.arg / 2 : ℝ) * Complex.I))
  else if g.name = "R1" then
    mat2 1 0 0 (Complex.exp ((g.arg : ℝ) * Complex.I))
  else mat2 1 0 0 1

/-- A gate acting on a register (`gate.py`): either a single-qubit gate or a
fully-controlled gate with a flip mask. -/
inductive Gate where
  | single (gate2 : Gate2) (qubit_id : ℕ) (qubit_count : ℕ)
  | fc (gate2 : Gate2) (qubit_id : ℕ) (qubit_count : ℕ) (flip_mask : ℕ)

def Gate.gate2 : Gate → Gate2
  | .single g _ _ => g
  | .fc g _ _ _ => g

def Gate.qubit_id : Gate → ℕ
  | .single _ q _ => q
  | .fc _ q _ _ => q

def Gate.qubit_count : Gate → ℕ
  | .single _ _ c => c
  | .fc _ _ c _ => c

/-- `GateSingle.to_matrix` (`gate.py` lines 31–52): the tensor product
`I ⊗ ... ⊗ gate2 ⊗ ... ⊗ I`, built exactly as in the source: a `tile` of size
`2^(qubit_id+1)` (the matrix itself when `qubit_id = 0`, otherwise the gate
entries spread over identity subtiles), repeated down the diagonal. -/
noncomputable def GateSingle.to_matrix (g2 : Gate2) (qubit_id qubit_count : ℕ) : Mat :=
  let tile_size := 2 ^ (qubit_id + 1)
  let m := g2.to_matrix
  let tile : Mat :=
    if qubit_id = 0 then m
    else fun r c =>
      if r % (tile_size / 2) = c % (tile_size / 2) then
        m (r / (tile_size / 2)) (c / (tile_size / 2))
      else 0
  fun i j =>
    if i / tile_size = j / tile_size ∧ i / tile_size < 2 ^ (qubit_count - qubit_id - 1)
    then tile (i % tile_size) (j % tile_size) else 0

/-- `GateFC.to_matrix` (`gate.py` lines 97–106): the two-level embedding of
the owned `Gate2` at indices `index2 = 2^n - 1 - flip_mask`,
`index1 = index2 - 2^qubit_id`. -/
noncomputable def GateFC.to_matrix (g2 : Gate2) (qubit_id qubit_count flip_mask : ℕ) : Mat :=
  TwoLevelUnitary.full
    ⟨g2.to_matrix, 2 ^ qubit_count,
     (2 ^ qubit_count - 1 - flip_mask) - 2 ^ qubit_id,
     2 ^ qubit_count - 1 - flip_mask⟩

noncomputable def Gate.to_matrix : Gate → Mat
  | .single g2 qid qc => GateSingle.to_matrix g2 qid qc
  | .fc g2 qid qc mask => GateFC.to_matrix g2 qid qc mask

/-- The matrix of a gate sequence in application order: for `[g1, ..., gk]`
the product `gk ⬝ ... ⬝ g1` (the head of the list is applied first and is the
rightmost factor). -/
noncomputable def seqMatrix (n : ℕ) (gs : List Gate) : Mat :=
  gs.foldr (fun g acc => matMul n acc g.to_matrix) matId

/-- A rendered Q# command, as structured data: the operation name, the
optional angle argument (already carrying the Q# sign convention), the target
qubit, and the control qubits (empty for a single-qubit command).  The textual
formatting of the source is abstracted away. -/
structure QsCmd where
  name : String
  arg : Option ℝ
  qubit : ℕ
  controls : List ℕ

/-- `GateSingle.to_qsharp_command` (`gate.py` lines 21–29).  The Python
function has no `else` branch: an unrecognized `gate2.name` falls through and
silently returns `None`, embedded here as `Option.none`. -/
noncomputable def GateSingle.to_qsharp_command (g2 : Gate2) (qubit_id : ℕ) : Option QsCmd :=
  if g2.name = "Rx" ∨ g2.name = "Ry" ∨ g2.name = "Rz" then
    some ⟨g2.name, some (-g2.arg), qubit_id, []⟩
  else if g2.name = "R1" then some ⟨"R1", some g2.arg, qubit_id, []⟩
  else if g2.name = "X" then some ⟨"X", none, qubit_id, []⟩
  else none

/-- `GateFC.to_qsharp_command` (`gate.py` lines 77–95): on one qubit it
delegates to the single-qubit command; a nonzero `flip_mask` raises
`ValueError` (embedded as `Except.error`); and as for `GateSingle`, an
unrecognized `gate2.name` falls through and silently returns `None`. -/
noncomputable def GateFC.to_qsharp_command (g2 : Gate2) (qubit_id qubit_count flip_mask : ℕ) :
    Except String (Option QsCmd) :=
  if qubit_count = 1 then .ok (GateSingle.to_qsharp_command g2 qubit_id)
  else if flip_mask ≠ 0 then .error "flip_mask must be zero."
  else
    let controls := ((List.range qubit_count).filter (fun i => i ≠ qubit_id))
    if g2.name = "Rx" ∨ g2.name = "Ry" ∨ g2.name = "Rz" then
      .ok (some ⟨g2.name, some (-g2.arg), qubit_id, controls⟩)
    else if g2.name = "R1" then .ok (some ⟨"R1", some g2.arg, qubit_id, controls⟩)
    else if g2.name = "X" then .ok (some ⟨"X", none, qubit_id, controls⟩)
    else .ok none

/-- A Cirq gate object, as structured data. -/
inductive CirqGate where
  | X
  | ry (angle : ℝ)
  | rz (angle : ℝ)
  | zpow (exponent : ℝ)

/-- `gate_to_cirq` (`quantum_decomp_main.py` lines 135–145): an unrecognized
`gate2.name` raises `RuntimeError`, embedded as `Except.error`. -/
noncomputable def gate_to_cirq (g2 : Gate2) : Except String CirqGate :=
  if g2.name = "X" then .ok .X
  else if g2.name = "Ry" then .ok (.ry (-g2.arg))
  else if g2.name = "Rz" then .ok (.rz (-g2.arg))
  else if g2.name = "R1" then .ok (.zpow (g2.arg / Real.pi))
  else .error ("unsupported gate kind " ++ g2.name)

/-- A Qiskit gate object, as structured data. -/
inductive QiskitGate where
  | X
  | ry (angle : ℝ)
  | rz (angle : ℝ)
  | u1 (angle : ℝ)

/-- `gate_to_qiskit` (`quantum_decomp_main.py` lines 178–188): an unrecognized
`gate2.name` raises `RuntimeError`, embedded as `Except.error`. -/
noncomputable def gate_to_qiskit (g2 : Gate2) : Except String QiskitGate :=
  if g2.name = "X" then .ok .X
  else if g2.name = "Ry" then .ok (.ry (-g2.arg))
  else if g2.name = "Rz" then .ok (.rz (-g2.arg))
  else if g2.name = "R1" then .ok (.u1 g2.arg)
  else .error ("unsupported gate kind " ++ g2.name)

/-- The rotation kinds whose adjacent same-axis composition is additive. -/
def rotNames : List String := ["Rx", "Ry", "Rz", "R1"]

/-- Modelled from the spec (§3): a well-formed gate for an `n`-qubit register
— `qubit_count = n`, target index in range, and (for fully-controlled gates)
flip-mask bits only at control positions, never at the target index. -/
def wfGate (n : ℕ) : Gate → Prop
  | .single _ qid qc => qc = n ∧ qid < n
  | .fc _ qid qc mask => qc = n ∧ qid < n ∧ mask < 2 ^ qc ∧ mask.testBit qid = false

/-- Modelled from the spec (§4.4): a no-op gate — a rotation kind with zero
rotation angle. -/
def isIdGate (g : Gate) : Prop := g.gate2.name ∈ rotNames ∧ g.gate2.arg = 0

/-- Modelled from the spec (§4.4): two adjacent fully-controlled rotation
gates with identical qubit target, control pattern and gate kind merge with
angles summed. -/
def mergeableRot : Gate → Gate → Prop
  | .fc a qi qc m, .fc a' qi' qc' m' =>
    a.name = a'.name ∧ a.name ∈ rotNames ∧ qi = qi' ∧ qc = qc' ∧ m = m'
  | _, _ => False

/-- Modelled from the spec (§4.4): two adjacent identical fully-controlled
bit-flip gates compose to the identity. -/
def isXPair : Gate → Gate → Prop
  | .fc a qi qc m, .fc a' qi' qc' m' =>
    a.name = "X" ∧ a'.name = "X" ∧ qi = qi' ∧ qc = qc' ∧ m = m'
  | _, _ => False

/-- Modelled from the spec (§4.4): the merged gate of two mergeable rotation
gates — the same gate with the angles summed. -/
def mergeRot : Gate → Gate → Gate
  | .fc a qi qc m, .fc a' _ _ _ => .fc ⟨a.name, a.arg + a'.arg⟩ qi qc m
  | g, _ => g

/-- Modelled from the spec (§4.4): one adjacent-pair rewriting step of the
optimizer — the incoming gate `g` against the head of the already-optimized
suffix: cancel an adjacent identical bit-flip pair, merge adjacent same-kind
same-footprint rotations (re-checking the merge for a resulting no-op), and
pass everything else through unchanged. -/
noncomputable def optStep (g : Gate) : List Gate → List Gate
  | [] => [g]
  | g' :: tail =>
    if isXPair g g' then tail
    else if mergeableRot g g' then
      if isIdGate (mergeRot g g') then tail else mergeRot g g' :: tail
    else g :: g' :: tail

/-- Modelled from the spec: `optimize_gates` from the missing `optimize.py`
(spec §4.4) — a local adjacent-pair rewriting pass over the gate list: no-op
gates are dropped and each remaining gate is rewritten against the head of
the optimized suffix. -/
noncomputable def optimize_gates : List Gate → List Gate
  | [] => []
  | g :: rest =>
    if isIdGate g then optimize_gates rest
    else optStep g (optimize_gates rest)

/-- Modelled from the spec (§4.3): the matrix-to-`Gate2` fitting step — the
trigonometric decomposition of a `2 × 2` unitary `u` into rotation and phase
primitives `u = phase(φ) · Rz(β) · Ry(γ) · Rz(δ)` with
`φ = arg(det u) / 2`, `γ = 2·arccos |u₀₀|`, and `β, δ` recovered from the
entry phases; the scalar phase `e^{iφ}` is emitted as `Rz(-2φ)` followed by
`R1(2φ)`.  The returned list is in application order. -/
noncomputable def u2_to_gate2s (u : Mat) : List Gate2 :=
  let phi := Complex.arg (det2 u) / 2
  let gamma := 2 * Real.arccos (Complex.abs (u 0 0))
  let beta := (Complex.arg (u 1 1) - phi) + (Complex.arg (u 1 0) - phi)
  let delta := (Complex.arg (u 1 1) - phi) - (Complex.arg (u 1 0) - phi)
  [⟨"Rz", delta⟩, ⟨"Ry", gamma⟩, ⟨"Rz", beta⟩, ⟨"Rz", -(2 * phi)⟩, ⟨"R1", 2 * phi⟩]

/-- Modelled from the spec (§4.3): `to_fc_gates` from the missing
`two_level_unitary.py` — a single-bit `TwoLevelUnitary` (indices differing in
exactly bit `t`) becomes fully-controlled gates on target qubit `t` with flip
mask the complement of the shared control pattern, one gate per primitive of
the fitting step. -/
noncomputable def TwoLevelUnitary.to_fc_gates (u : TwoLevelUnitary) : List Gate :=
  let qubit_count := Nat.log2 u.dim
  let t := Nat.log2 (u.i1 ^^^ u.i2)
  let flip_mask := u.dim - 1 - u.i2
  (u2_to_gate2s u.sub).map fun g2 => .fc g2 t qubit_count flip_mask

/-- `matrix_to_gates(A)` (`quantum_decomp_main.py` lines 89–105), without the
4×4 `optimize` shortcut (no `optimize=True` keyword): Gray decomposition,
gate synthesis, then the optimizer pass. -/
noncomputable def matrix_to_gates (shape : ℕ × ℕ) (A : Mat) : Except Err (List Gate) :=
  exCase (two_level_decompose_gray shape A) fun matrices =>
    .ok (optimize_gates ((matrices.map (·.to_fc_gates)).flatten))

/-- The product of a list of two-level factors in application order: for
`[u_1, ..., u_k]` the matrix `u_k ⬝ ... ⬝ u_1` of their full embeddings. -/
noncomputable def tluProduct (n : ℕ) (l : List TwoLevelUnitary) : Mat :=
  l.foldr (fun u acc => matMul n acc u.full) matId

/-- The diagonal unitary `diag(-1, 1, 1, ...)` (in every dimension): a phase
of `-1` in the top-left entry, identity elsewhere. -/
noncomputable def diagNeg : Mat := fun i j =>
  if i = j then (if i = 0 then -1 else 1) else 0

/-- The real entries of `boundaryMat`: rows `(1, t, t)`, `(-t, 1, 0)`,
`(-t, 0, 1)` with `t = 1e-9`. -/
noncomputable def boundaryMatR : ℕ → ℕ → ℝ := fun i j =>
  if i = 0 ∧ j = 0 then 1
  else if i = 0 ∧ (j = 1 ∨ j = 2) then 1e-9
  else if (i = 1 ∨ i = 2) ∧ j = 0 then -1e-9
  else if i = j ∧ (i = 1 ∨ i = 2) then 1
  else 0

/-- A `3 × 3` matrix that is unitary within tolerance (its unitarity defect is
`2·10⁻¹⁸`) and whose entries `A 0 1` and `A 0 2` have magnitude exactly
`1e-9`. -/
noncomputable def boundaryMat : Mat := fun i j => ((boundaryMatR i j : ℝ) : ℂ)

/-! ## Theorems -/

@[simp] theorem exCase_ok {α β : Type} (a : α) (f : α → Except Err β) :
    exCase (.ok a) f = f a := rfl

@[simp] theorem exCase_error {α β : Type} (e : Err) (f : α → Except Err β) :
    exCase (.error e) f = .error e := rfl

theorem exCase_eq_ok {α β : Type} {x : Except Err α} {f : α → Except Err β} {b : β}
    (h : exCase x f = .ok b) : ∃ a, x = .ok a ∧ f a = .ok b := by
  cases x with
  | error e => exact Except.noConfusion h
  | ok a => exact ⟨a, rfl, h⟩

theorem eqOn_refl (n : ℕ) (A : Mat) : eqOn n A A := fun _ _ _ _ => rfl

theorem eqOn_symm {n : ℕ} {A B : Mat} (h : eqOn n A B) : eqOn n B A :=
  fun i hi j hj => (h i hi j hj).symm

theorem eqOn_trans {n : ℕ} {A B C : Mat} (h1 : eqOn n A B) (h2 : eqOn n B C) :
    eqOn n A C := fun i hi j hj => (h1 i hi j hj).trans (h2 i hi j hj)

theorem matMul_congr_left {n : ℕ} {A A' : Mat} (B : Mat) (h : eqOn n A A') :
    eqOn n (matMul n A B) (matMul n A' B) := by
  intro i hi j _
  unfold matMul
  exact Finset.sum_congr rfl fun k hk => by
    rw [h i hi k (Finset.mem_range.mp hk)]

theorem matMul_congr_right {n : ℕ} (A : Mat) {B B' : Mat} (h : eqOn n B B') :
    eqOn n (matMul n A B) (matMul n A B') := by
  intro i _ j hj
  unfold matMul
  exact Finset.sum_congr rfl fun k hk => by
    rw [h k (Finset.mem_range.mp hk) j hj]

theorem matMul_assoc (n : ℕ) (A B C : Mat) :
    matMul n (matMul n A B) C = matMul n A (matMul n B C) := by
  funext i j
  unfold matMul
  simp only [Finset.sum_mul, Finset.mul_sum]
  rw [Finset.sum_comm]
  exact Finset.sum_congr rfl fun k _ => Finset.sum_congr rfl fun l _ => by ring

theorem matMul_matId_right (n : ℕ) (A : Mat) : eqOn n (matMul n A matId) A := by
  intro i _ j hj
  unfold matMul matId
  rw [Finset.sum_eq_single j]
  · simp
  · intro k _ hk
    rw [if_neg hk, mul_zero]
  · intro h
    exact absurd (Finset.mem_range.mpr hj) h

/-- C4 helper: the three validation errors of `two_level_decompose_gray`. -/
theorem gray_error_of_invalid (shape : ℕ × ℕ) (A : Mat)
    (h : ¬ is_power_of_two shape.1 ∨ shape.2 ≠ shape.1 ∨ ¬ is_unitary shape.1 A) :
    ∃ e, two_level_decompose_gray shape A = .error e := by
  unfold two_level_decompose_gray
  by_cases h1 : is_power_of_two shape.1
  · rw [if_pos h1]
    by_cases h2 : shape.2 = shape.1
    · rw [if_pos h2]
      rcases h with h | h | h
      · exact absurd h1 h
      · exact absurd h2 h
      · rw [if_neg h]
        exact ⟨_, rfl⟩
    · rw [if_neg h2]
      exact ⟨_, rfl⟩
  · rw [if_neg h1]
    exact ⟨_, rfl⟩

/-- **C4**: an input violating a precondition of `two_level_decompose_gray` —
dimension not a power of two, non-square shape, or not unitary within
tolerance `1e-9` — makes the function fail with a validation error, so no
`TwoLevelUnitary` factor is produced for such an input. -/
theorem c4_gray_rejects_invalid_input (shape : ℕ × ℕ) (A : Mat)
    (h : ¬ is_power_of_two shape.1 ∨ shape.2 ≠ shape.1 ∨ ¬ is_unitary shape.1 A) :
    ∃ e, two_level_decompose_gray shape A = .error e ∧
      ∀ l, two_level_decompose_gray shape A ≠ .ok l := by
  obtain ⟨e, he⟩ := gray_error_of_invalid shape A h
  exact ⟨e, he, fun l hl => by rw [he] at hl; exact Except.noConfusion hl⟩

theorem not_pow2_three : ¬ is_power_of_two 3 := by
  rintro ⟨k, hk⟩
  match k with
  | 0 => simp at hk
  | 1 => simp at hk
  | k + 2 =>
    have h1 : 1 ≤ 2 ^ k := Nat.one_le_two_pow
    rw [pow_succ, pow_succ] at hk
    omega

/-- C4 witness: a `3 × 3` matrix is rejected (3 is not a power of two). -/
theorem c4_witness :
    (¬ is_power_of_two (3, 3).1 ∨ (3, 3).2 ≠ (3, 3).1 ∨ ¬ is_unitary (3, 3).1 matId) ∧
      ∃ e, two_level_decompose_gray (3, 3) matId = .error e ∧
        ∀ l, two_level_decompose_gray (3, 3) matId ≠ .ok l :=
  ⟨Or.inl not_pow2_three,
    c4_gray_rejects_invalid_input (3, 3) matId (Or.inl not_pow2_three)⟩

/-- **C9 counterexample**: the claim says rendering an unrecognized gate kind
"fails loudly with a fatal error rather than silently producing nothing" also
for the Q# command rendering; but `GateSingle.to_qsharp_command` has no
fall-through error branch in `gate.py` (lines 21–29) and silently renders an
unrecognized kind to nothing (`None`). -/
theorem c9_qsharp_silent_none :
    GateSingle.to_qsharp_command ⟨"Foo", 0⟩ 0 = none := by
  unfold GateSingle.to_qsharp_command
  rw [if_neg (by decide), if_neg (by decide), if_neg (by decide)]

/-- **C9 (amended)**: for a `Gate2` kind tag outside the recognized
vocabulary, the Cirq and Qiskit translations fail loudly (`RuntimeError`),
but the Q# command rendering of `GateSingle`, and of `GateFC` with zero flip
mask, silently produces no command (`None`). -/
theorem c9_unrecognized_kind_rendering (g2 : Gate2) (qid qc : ℕ)
    (hX : g2.name ≠ "X") (hRx : g2.name ≠ "Rx") (hRy : g2.name ≠ "Ry")
    (hRz : g2.name ≠ "Rz") (hR1 : g2.name ≠ "R1") :
    GateSingle.to_qsharp_command g2 qid = none ∧
      GateFC.to_qsharp_command g2 qid qc 0 = .ok none ∧
      (∃ s, gate_to_cirq g2 = .error s) ∧
      (∃ s, gate_to_qiskit g2 = .error s) := by
  refine ⟨?_, ?_, ⟨"unsupported gate kind " ++ g2.name, ?_⟩,
    ⟨"unsupported gate kind " ++ g2.name, ?_⟩⟩
  · unfold GateSingle.to_qsharp_command
    simp [hX, hRx, hRy, hRz, hR1]
  · unfold GateFC.to_qsharp_command GateSingle.to_qsharp_command
    by_cases h1 : qc = 1 <;> simp [h1, hX, hRx, hRy, hRz, hR1]
  · unfold gate_to_cirq
    simp [hX, hRy, hRz, hR1]
  · unfold gate_to_qiskit
    simp [hX, hRy, hRz, hR1]

/-- C9 witness: the amended statement at the concrete kind tag `"Foo"`. -/
theorem c9_witness :
    GateSingle.to_qsharp_command ⟨"Bar", 0⟩ 0 = none ∧
      GateFC.to_qsharp_command ⟨"Bar", 0⟩ 0 2 0 = .ok none ∧
      (∃ s, gate_to_cirq ⟨"Bar", 0⟩ = .error s) ∧
      (∃ s, gate_to_qiskit ⟨"Bar", 0⟩ = .error s) :=
  c9_unrecognized_kind_rendering ⟨"Bar", 0⟩ 0 2
    (by decide) (by decide) (by decide) (by decide) (by decide)

/-! ### Bit-arithmetic toolkit -/

theorem xor_two_mul_add (a b c d : ℕ) (hc : c < 2) (hd : d < 2) :
    (2 * a + c) ^^^ (2 * b + d) = 2 * (a ^^^ b) + (c ^^^ d) := by
  have hcd : c ^^^ d < 2 := by interval_cases c <;> interval_cases d <;> decide
  apply Nat.eq_of_testBit_eq
  intro i
  cases i with
  | zero =>
    rw [Nat.testBit_xor, Nat.testBit_zero, Nat.testBit_zero, Nat.testBit_zero,
        Nat.mul_add_mod, Nat.mul_add_mod, Nat.mul_add_mod]
    interval_cases c <;> interval_cases d <;> decide
  | succ i =>
    rw [Nat.testBit_xor, Nat.testBit_succ, Nat.testBit_succ, Nat.testBit_succ,
        Nat.mul_add_div (by norm_num), Nat.mul_add_div (by norm_num),
        Nat.mul_add_div (by norm_num)]
    have h1 : c / 2 = 0 := by omega
    have h2 : d / 2 = 0 := by omega
    have h3 : (c ^^^ d) / 2 = 0 := by omega
    rw [h1, h2, h3, Nat.add_zero, Nat.add_zero, Nat.add_zero, Nat.testBit_xor]

theorem xor_two_pow_of_testBit : ∀ (t x : ℕ), x.testBit t = true → x ^^^ 2 ^ t = x - 2 ^ t := by
  intro t
  induction t with
  | zero =>
    intro x hx
    rw [Nat.testBit_zero] at hx
    have hx1 : x % 2 = 1 := of_decide_eq_true hx
    have hdecomp : x = 2 * (x / 2) + 1 := by omega
    calc x ^^^ 2 ^ 0 = (2 * (x / 2) + 1) ^^^ (2 * 0 + 1) := by
          rw [← hdecomp]; norm_num
      _ = 2 * (x / 2 ^^^ 0) + (1 ^^^ 1) := xor_two_mul_add _ _ _ _ (by norm_num) (by norm_num)
      _ = x - 2 ^ 0 := by rw [Nat.xor_zero, Nat.xor_self]; omega
  | succ t ih =>
    intro x hx
    rw [Nat.testBit_succ] at hx
    have hge : 2 ^ t ≤ x / 2 := Nat.testBit_implies_ge hx
    have hdecomp : x = 2 * (x / 2) + x % 2 := by omega
    have hm2 : x % 2 < 2 := Nat.mod_lt _ (by norm_num)
    calc x ^^^ 2 ^ (t + 1) = (2 * (x / 2) + x % 2) ^^^ (2 * 2 ^ t + 0) := by
          rw [← hdecomp, pow_succ]; ring_nf
      _ = 2 * (x / 2 ^^^ 2 ^ t) + (x % 2 ^^^ 0) :=
          xor_two_mul_add _ _ _ _ hm2 (by norm_num)
      _ = 2 * (x / 2 - 2 ^ t) + x % 2 := by rw [ih _ hx, Nat.xor_zero]
      _ = x - 2 ^ (t + 1) := by rw [pow_succ]; omega

theorem sub_two_pow_xor {x t : ℕ} (h : x.testBit t = true) :
    (x - 2 ^ t) ^^^ x = 2 ^ t := by
  rw [← xor_two_pow_of_testBit t x h, Nat.xor_comm x (2 ^ t), Nat.xor_assoc,
      Nat.xor_self, Nat.xor_zero]

/-- Bits of the complement `2^k - 1 - mask`. -/
theorem testBit_complement {k mask : ℕ} (h : mask < 2 ^ k) (i : ℕ) :
    (2 ^ k - 1 - mask).testBit i = (decide (i < k) && !mask.testBit i) := by
  have : 2 ^ k - 1 - mask = 2 ^ k - (mask + 1) := by omega
  rw [this, Nat.testBit_two_pow_sub_succ h]

/-- **C10**: for a `GateFC` with target `t < n`, `flip_mask < 2^n` having no
bit at the target position, `GateFC.to_matrix` is the identity away from the
index pair `i2 = 2^n - 1 - flip_mask`, `i1 = i2 - 2^t`, carries the owned
`Gate2` matrix as its `2 × 2` block there, and `i1, i2` differ in exactly bit
`t` (`i1 XOR i2 = 2^t`). -/
theorem c10_gatefc_to_matrix (g2 : Gate2) (qid qc mask i1 i2 : ℕ)
    (h1 : qid < qc) (h2 : mask < 2 ^ qc) (h3 : mask.testBit qid = false)
    (hi2 : i2 = 2 ^ qc - 1 - mask) (hi1 : i1 = i2 - 2 ^ qid) :
    i1 ^^^ i2 = 2 ^ qid ∧
      GateFC.to_matrix g2 qid qc mask i1 i1 = g2.to_matrix 0 0 ∧
      GateFC.to_matrix g2 qid qc mask i1 i2 = g2.to_matrix 0 1 ∧
      GateFC.to_matrix g2 qid qc mask i2 i1 = g2.to_matrix 1 0 ∧
      GateFC.to_matrix g2 qid qc mask i2 i2 = g2.to_matrix 1 1 ∧
      (∀ p q, (p ≠ i1 ∧ p ≠ i2) ∨ (q ≠ i1 ∧ q ≠ i2) →
        GateFC.to_matrix g2 qid qc mask p q = matId p q) := by
  have hbit : i2.testBit qid = true := by
    rw [hi2, testBit_complement h2, h3]
    simp [h1]
  have hxor : i1 ^^^ i2 = 2 ^ qid := by
    rw [hi1]; exact sub_two_pow_xor hbit
  have hge : 2 ^ qid ≤ i2 := Nat.testBit_implies_ge hbit
  have hpow : 0 < 2 ^ qid := Nat.pos_pow_of_pos qid (by norm_num)
  have hlt : i1 < i2 := by omega
  have hne : i1 ≠ i2 := Nat.ne_of_lt hlt
  have hfc : ∀ p q, GateFC.to_matrix g2 qid qc mask p q =
      TwoLevelUnitary.full ⟨g2.to_matrix, 2 ^ qc, i1, i2⟩ p q := by
    intro p q
    unfold GateFC.to_matrix
    rw [hi2, hi1, hi2]
  refine ⟨hxor, ?_, ?_, ?_, ?_, ?_⟩
  · rw [hfc]; unfold TwoLevelUnitary.full
    simp
  · rw [hfc]; unfold TwoLevelUnitary.full
    simp [hne, Ne.symm hne]
  · rw [hfc]; unfold TwoLevelUnitary.full
    simp [hne, Ne.symm hne]
  · rw [hfc]; unfold TwoLevelUnitary.full
    simp [hne, Ne.symm hne]
  · intro p q hpq
    rw [hfc]; unfold TwoLevelUnitary.full matId
    rcases hpq with ⟨hp1, hp2⟩ | ⟨hq1, hq2⟩
    · simp only [hp1, hp2, false_and, if_false]
    · simp only [hq1, hq2, and_false, if_false]

/-- C10 witness: a fully-controlled gate on 2 qubits with target qubit 0 and
flip mask 2 (`i2 = 1`, `i1 = 0`). -/
theorem c10_witness :
    (0 < 2 ∧ 2 < 2 ^ 2 ∧ Nat.testBit 2 0 = false ∧
        1 = 2 ^ 2 - 1 - 2 ∧ 0 = 1 - 2 ^ 0) ∧
      (0 ^^^ 1 = 2 ^ 0 ∧
        GateFC.to_matrix ⟨"X", 0⟩ 0 2 2 0 0 = Gate2.to_matrix ⟨"X", 0⟩ 0 0 ∧
        GateFC.to_matrix ⟨"X", 0⟩ 0 2 2 0 1 = Gate2.to_matrix ⟨"X", 0⟩ 0 1 ∧
        GateFC.to_matrix ⟨"X", 0⟩ 0 2 2 1 0 = Gate2.to_matrix ⟨"X", 0⟩ 1 0 ∧
        GateFC.to_matrix ⟨"X", 0⟩ 0 2 2 1 1 = Gate2.to_matrix ⟨"X", 0⟩ 1 1 ∧
        (∀ p q, (p ≠ 0 ∧ p ≠ 1) ∨ (q ≠ 0 ∧ q ≠ 1) →
          GateFC.to_matrix ⟨"X", 0⟩ 0 2 2 p q = matId p q)) :=
  ⟨⟨by decide, by decide, by decide, by decide, by decide⟩,
    c10_gatefc_to_matrix ⟨"X", 0⟩ 0 2 2 0 1
      (by decide) (by decide) (by decide) (by decide) (by decide)⟩

/-! ### Gray-code lemmas -/

theorem xor_div_two (a b : ℕ) : (a ^^^ b) / 2 = a / 2 ^^^ b / 2 := by
  apply Nat.eq_of_testBit_eq
  intro i
  rw [Nat.testBit_div_two, Nat.testBit_xor, Nat.testBit_xor, Nat.testBit_div_two,
      Nat.testBit_div_two]

theorem grayFn_xor (a b : ℕ) : grayFn a ^^^ grayFn b = grayFn (a ^^^ b) := by
  unfold grayFn
  rw [xor_div_two]
  apply Nat.eq_of_testBit_eq
  intro i
  simp only [Nat.testBit_xor]
  cases a.testBit i <;> cases b.testBit i <;>
    cases (a / 2).testBit i <;> cases (b / 2).testBit i <;> rfl

theorem xor_succ_self (j : ℕ) : ∃ t, j ^^^ (j + 1) = 2 ^ (t + 1) - 1 := by
  induction j using Nat.strong_induction_on with
  | _ j ih =>
    rcases Nat.even_or_odd j with ⟨m, hm⟩ | ⟨m, hm⟩
    · refine ⟨0, ?_⟩
      have h1 : j = 2 * m + 0 := by omega
      rw [h1]
      have h2 : 2 * m + 0 + 1 = 2 * m + 1 := by omega
      rw [h2, xor_two_mul_add _ _ _ _ (by norm_num) (by norm_num), Nat.xor_self]
      norm_num
    · have hmj : m < j := by omega
      obtain ⟨s, hs⟩ := ih m hmj
      refine ⟨s + 1, ?_⟩
      have h1 : j = 2 * m + 1 := by omega
      rw [h1]
      have h2 : 2 * m + 1 + 1 = 2 * (m + 1) + 0 := by omega
      have hp : 1 ≤ 2 ^ (s + 1) := Nat.one_le_two_pow
      rw [h2, xor_two_mul_add _ _ _ _ (by norm_num) (by norm_num), hs, Nat.xor_zero,
          pow_succ 2 (s + 1)]
      omega

theorem all_ones_xor (s : ℕ) : (2 ^ (s + 1) - 1) ^^^ (2 ^ s - 1) = 2 ^ s := by
  apply Nat.eq_of_testBit_eq
  intro i
  rw [Nat.testBit_xor, Nat.testBit_two_pow_sub_one, Nat.testBit_two_pow_sub_one,
      Nat.testBit_two_pow]
  by_cases h1 : i < s
  · simp [h1, Nat.lt_succ_of_lt h1]
    omega
  · by_cases h2 : i < s + 1 <;> simp [h1, h2] <;> omega

/-- Gray codes of consecutive integers differ in exactly one bit. -/
theorem gray_adjacent (j : ℕ) : ∃ t, grayFn j ^^^ grayFn (j + 1) = 2 ^ t := by
  obtain ⟨s, hs⟩ := xor_succ_self j
  refine ⟨s, ?_⟩
  rw [grayFn_xor, hs]
  show (2 ^ (s + 1) - 1) ^^^ (2 ^ (s + 1) - 1) / 2 = 2 ^ s
  have hp : 2 ^ (s + 1) = 2 * 2 ^ s := by rw [pow_succ]; ring
  have hdiv : (2 ^ (s + 1) - 1) / 2 = 2 ^ s - 1 := by omega
  rw [hdiv]
  exact all_ones_xor s

/-! ### Shape of the factors produced by the elimination sweep -/

/-- Each sweep step either skips or appends one factor on the consecutive
index pair `(j - 1, j)` of its column index `j ≥ 1`. -/
theorem elimStep_shape {n : ℕ} {st st' : Mat × List TwoLevelUnitary} {ij : ℕ × ℕ}
    (h : elimStep n st ij = .ok st') :
    st'.2 = st.2 ∨ ∃ t : TwoLevelUnitary, st'.2 = st.2 ++ [t] ∧
      t.i1 = ij.2 - 1 ∧ t.i2 = ij.2 ∧ 1 ≤ ij.2 ∧ t.dim = n := by
  unfold elimStep at h
  by_cases habs : Complex.abs (st.1 ij.1 ij.2) < tol
  · rw [if_pos habs] at h
    injection h with h
    rw [← h]
    exact Or.inl rfl
  · rw [if_neg habs] at h
    cases hm : (if Complex.abs (st.1 ij.1 (ij.2 - 1)) < tol then Except.ok PAULI_X
        else make_eliminating_matrix (st.1 ij.1 (ij.2 - 1)) (st.1 ij.1 ij.2)) with
    | error e => rw [hm, exCase_error] at h; exact Except.noConfusion h
    | ok u2 =>
      rw [hm, exCase_ok] at h
      unfold mkTLU at h
      by_cases hinv : ij.2 - 1 < ij.2 ∧ ij.2 < n
      · rw [if_pos hinv, exCase_ok] at h
        injection h with h
        refine Or.inr ⟨TwoLevelUnitary.inv ⟨u2, n, ij.2 - 1, ij.2⟩, ?_, rfl, rfl, ?_, rfl⟩
        · rw [← h]
        · omega
      · rw [if_neg hinv, exCase_error] at h
        exact Except.noConfusion h

/-- Invariant of the whole sweep: the accumulated factor list grows by at
most one per index pair, and every new factor sits on a consecutive index
pair. -/
theorem sweepRun_inv (n : ℕ) :
    ∀ (l : List (ℕ × ℕ)) (st res : Mat × List TwoLevelUnitary),
      sweepRun n l st = .ok res →
      res.2.length ≤ st.2.length + l.length ∧
        ∀ u ∈ res.2, u ∈ st.2 ∨ ∃ j, 1 ≤ j ∧ u.i1 = j - 1 ∧ u.i2 = j ∧ u.dim = n := by
  intro l
  induction l with
  | nil =>
    intro st res h
    unfold sweepRun at h
    injection h with h
    rw [← h]
    exact ⟨by simp, fun u hu => Or.inl hu⟩
  | cons ij rest ih =>
    intro st res h
    unfold sweepRun at h
    cases helim : elimStep n st ij with
    | error e => rw [helim, exCase_error] at h; exact Except.noConfusion h
    | ok st' =>
      rw [helim, exCase_ok] at h
      obtain ⟨hlen, hmem⟩ := ih st' res h
      rcases elimStep_shape helim with heq | ⟨t, heq, ht1, ht2, ht3, ht4⟩
      · rw [heq] at hlen hmem
        exact ⟨by simpa using Nat.le_trans hlen (by omega), hmem⟩
      · rw [heq] at hlen hmem
        constructor
        · simp only [List.length_append, List.length_singleton] at hlen
          simpa using Nat.le_trans hlen (by omega)
        · intro u hu
          rcases hmem u hu with hins | hnew
          · rcases List.mem_append.mp hins with hold | hsing
            · exact Or.inl hold
            · right
              rw [List.mem_singleton.mp hsing]
              exact ⟨ij.2, ht3, ht1, ht2, ht4⟩
          · exact Or.inr hnew

/-- Factor shape and count for `two_level_decompose`: at most
`|sweepIndices n| + 1` factors, each on a consecutive index pair. -/
theorem two_level_decompose_factors {n : ℕ} {A : Mat} {l : List TwoLevelUnitary}
    (h : two_level_decompose n A = .ok l) :
    l.length ≤ (sweepIndices n).length + 1 ∧
      ∀ u ∈ l, ∃ j, 1 ≤ j ∧ u.i1 = j - 1 ∧ u.i2 = j ∧ u.dim = n := by
  unfold two_level_decompose at h
  by_cases hu : is_unitary n A
  · rw [if_pos hu] at h
    cases hs : sweepRun n (sweepIndices n) (A, []) with
    | error e => rw [hs, exCase_error] at h; exact Except.noConfusion h
    | ok st =>
      rw [hs, exCase_ok] at h
      unfold mkTLU at h
      by_cases hinv : n - 2 < n - 1 ∧ n - 1 < n
      · rw [if_pos hinv, exCase_ok] at h
        injection h with h
        obtain ⟨hlen, hmem⟩ := sweepRun_inv n (sweepIndices n) (A, []) st hs
        constructor
        · rw [← h, List.length_append, List.length_singleton]
          have hl0 : st.2.length ≤ (sweepIndices n).length := by simpa using hlen
          omega
        · intro u hu'
          rw [← h] at hu'
          rcases List.mem_append.mp hu' with hold | hsing
          · rcases hmem u hold with hemp | hok
            · exact absurd hemp (List.not_mem_nil u)
            · exact hok
          · rw [List.mem_singleton.mp hsing]
            exact ⟨n - 1, by omega, show n - 2 = n - 1 - 1 by omega, rfl, rfl⟩
      · rw [if_neg hinv, exCase_error] at h
        exact Except.noConfusion h
  · rw [if_neg hu] at h
    exact Except.noConfusion h

/-- Closed form for the sweep length, in `ℤ` to allow ring reasoning. -/
theorem sum_desc (m : ℕ) : ∀ c : ℕ, m ≤ c →
    (((List.range m).map (fun a => c - a)).sum : ℤ) * 2 = (2 * (c : ℤ) - m + 1) * m := by
  induction m with
  | zero => intro c _; simp
  | succ m ih =>
    intro c h
    rw [List.range_succ, List.map_append, List.sum_append]
    have hmc : m ≤ c := by omega
    have hcast : (((List.range m).map (fun a => c - a)).sum +
        ([m].map (fun a => c - a)).sum : ℕ) = (((List.range m).map (fun a => c - a)).sum +
        (c - m) : ℕ) := by simp
    rw [hcast]
    push_cast [Nat.cast_sub hmc]
    have := ih c hmc
    push_cast at this
    linear_combination this

theorem sweepIndices_length (n : ℕ) :
    ((sweepIndices n).length : ℤ) * 2 = (2 * ((n : ℤ) - 1) - (n - 2) + 1) * (n - 2) ∨ n < 2 := by
  by_cases hn : 2 ≤ n
  · left
    unfold sweepIndices
    rw [List.length_flatMap]
    simp only [Function.comp_def, List.length_map, List.length_range]
    have h := sum_desc (n - 2) (n - 1) (by omega)
    push_cast [Nat.cast_sub (by omega : 2 ≤ n), Nat.cast_sub (by omega : 1 ≤ n)] at h ⊢
    linear_combination h
  · exact Or.inr (by omega)

/-- **C6**: for an `n × n` unitary input (`n ≥ 2`), `two_level_decompose`
returns at most `n·(n−1)/2` two-level factors. -/
theorem c6_factor_count (n : ℕ) (A : Mat) (l : List TwoLevelUnitary)
    (hn : 2 ≤ n) (h : two_level_decompose n A = .ok l) :
    l.length ≤ n * (n - 1) / 2 := by
  obtain ⟨hlen, -⟩ := two_level_decompose_factors h
  rcases sweepIndices_length n with hsl | hbad
  · have h2 : ((sweepIndices n).length : ℤ) * 2 + 2 = n * ((n : ℤ) - 1) := by
      linear_combination hsl
    have hn1 : ((n : ℤ) - 1) = ((n - 1 : ℕ) : ℤ) := by
      push_cast [Nat.cast_sub (by omega : 1 ≤ n)]; ring
    rw [hn1] at h2
    have h3 : (sweepIndices n).length * 2 + 2 = n * (n - 1) := by
      have := h2
      push_cast at this
      omega
    omega
  · omega

theorem conjTrans_matId : conjTrans matId = matId := by
  funext i j
  unfold conjTrans matId
  by_cases h : i = j
  · subst h; simp
  · rw [if_neg (Ne.symm h), if_neg h, map_zero]

theorem is_unitary_matId (n : ℕ) : is_unitary n matId := by
  intro i hi j hj
  rw [conjTrans_matId, matMul_matId_right n matId i hi j hj, sub_self, map_zero]
  unfold tol
  norm_num

/-- C6 witness: the 2×2 identity decomposes into one factor, and
`1 ≤ 2·(2−1)/2`. -/
theorem c6_witness :
    2 ≤ 2 ∧ ∃ l, two_level_decompose 2 matId = .ok l ∧ l.length ≤ 2 * (2 - 1) / 2 := by
  have htl : ∃ t, two_level_decompose 2 matId = .ok [t] := by
    unfold two_level_decompose
    rw [if_pos (is_unitary_matId 2)]
    exact ⟨_, rfl⟩
  obtain ⟨t, ht⟩ := htl
  exact ⟨le_refl 2, [t], ht, c6_factor_count 2 matId [t] (le_refl 2) ht⟩

/-! ### Evaluation helpers for the sweep -/

theorem sweepRun_nil (n : ℕ) (st : Mat × List TwoLevelUnitary) :
    sweepRun n [] st = .ok st := rfl

theorem sweepRun_cons (n : ℕ) (ij : ℕ × ℕ) (rest : List (ℕ × ℕ))
    (st : Mat × List TwoLevelUnitary) :
    sweepRun n (ij :: rest) st = exCase (elimStep n st ij) fun st' =>
      sweepRun n rest st' := rfl

theorem elimStep_skip {n : ℕ} {st : Mat × List TwoLevelUnitary} {ij : ℕ × ℕ}
    (h : Complex.abs (st.1 ij.1 ij.2) < tol) : elimStep n st ij = .ok st := by
  unfold elimStep
  rw [if_pos h]

theorem is_unitary_congr {n : ℕ} {A B : Mat} (h : eqOn n A B)
    (hu : is_unitary n A) : is_unitary n B := by
  intro i hi j hj
  have heq : matMul n (conjTrans B) B i j = matMul n (conjTrans A) A i j := by
    unfold matMul conjTrans
    apply Finset.sum_congr rfl
    intro k hk
    rw [h k (Finset.mem_range.mp hk) i hi, h k (Finset.mem_range.mp hk) j hj]
  rw [heq]
  exact hu i hi j hj

theorem apply_permutation_xor (u : TwoLevelUnitary) (f : ℕ → ℕ) :
    (u.apply_permutation f).i1 ^^^ (u.apply_permutation f).i2 = f u.i1 ^^^ f u.i2 := by
  unfold TwoLevelUnitary.apply_permutation
  by_cases h : f u.i1 ≤ f u.i2
  · rw [if_pos h]
  · rw [if_neg h]
    exact Nat.xor_comm _ _

/-- **C3**: every factor returned by the Gray-code path has its two active
indices differing in exactly one bit: `i1 XOR i2` is a power of two. -/
theorem c3_gray_single_bit (shape : ℕ × ℕ) (A : Mat) (l : List TwoLevelUnitary)
    (h : two_level_decompose_gray shape A = .ok l) :
    ∀ u ∈ l, ∃ t, u.i1 ^^^ u.i2 = 2 ^ t := by
  simp only [two_level_decompose_gray] at h
  by_cases h1 : is_power_of_two shape.1
  · rw [if_pos h1] at h
    by_cases h2 : shape.2 = shape.1
    · rw [if_pos h2] at h
      by_cases h3 : is_unitary shape.1 A
      · rw [if_pos h3] at h
        obtain ⟨l0, hl0, hmap⟩ := exCase_eq_ok h
        injection hmap with hmap
        intro u hu
        rw [← hmap] at hu
        obtain ⟨u0, hu0, rfl⟩ := List.mem_map.mp hu
        obtain ⟨-, hshape⟩ := two_level_decompose_factors hl0
        obtain ⟨j, hj1, hji1, hji2, -⟩ := hshape u0 hu0
        rw [apply_permutation_xor, hji1, hji2]
        obtain ⟨t, ht⟩ := gray_adjacent (j - 1)
        rw [show j - 1 + 1 = j by omega] at ht
        exact ⟨t, ht⟩
      · rw [if_neg h3] at h
        exact Except.noConfusion h
    · rw [if_neg h2] at h
      exact Except.noConfusion h
  · rw [if_neg h1] at h
    exact Except.noConfusion h

/-- C3 witness: the Gray-code decomposition of the 2×2 identity. -/
theorem c3_witness :
    ∃ l, two_level_decompose_gray (2, 2) matId = .ok l ∧
      ∀ u ∈ l, ∃ t, u.i1 ^^^ u.i2 = 2 ^ t := by
  have hB : is_unitary 2 (fun i j => matId (grayFn i) (grayFn j)) := by
    apply is_unitary_congr (B := fun i j => matId (grayFn i) (grayFn j)) _ (is_unitary_matId 2)
    intro i hi j hj
    interval_cases i <;> interval_cases j <;> rfl
  have hok : ∃ l0, two_level_decompose 2 (fun i j => matId (grayFn i) (grayFn j)) = .ok l0 := by
    unfold two_level_decompose
    rw [if_pos hB]
    exact ⟨_, rfl⟩
  obtain ⟨l0, hl0⟩ := hok
  have hgray : two_level_decompose_gray (2, 2) matId =
      .ok (l0.map (fun u => u.apply_permutation grayFn)) := by
    simp only [two_level_decompose_gray]
    have hp2 : is_power_of_two 2 := ⟨1, rfl⟩
    rw [if_pos hp2, if_pos trivial, if_pos (is_unitary_matId 2), hl0, exCase_ok]
  exact ⟨_, hgray, c3_gray_single_bit (2, 2) matId _ hgray⟩

/-! ### C2: the round-trip property fails on `diag(-1, 1, 1)` -/

theorem conjTrans_diagNeg : conjTrans diagNeg = diagNeg := by
  funext i j
  unfold conjTrans diagNeg
  rw [apply_ite (starRingEnd ℂ), apply_ite (starRingEnd ℂ), map_neg, map_one, map_zero]
  by_cases hij : i = j
  · subst hij
    rfl
  · rw [if_neg hij, if_neg (Ne.symm hij)]

theorem is_unitary_diagNeg (n : ℕ) : is_unitary n diagNeg := by
  intro i hi j hj
  rw [conjTrans_diagNeg]
  have hmm : matMul n diagNeg diagNeg i j = matId i j := by
    unfold matMul
    rw [Finset.sum_eq_single j]
    · unfold diagNeg matId
      by_cases hij : i = j
      · subst hij
        by_cases h0 : i = 0 <;> simp [h0]
      · rw [if_neg hij, zero_mul, if_neg hij]
    · intro k _ hk
      unfold diagNeg
      rw [mul_ite, if_neg hk, mul_zero]
    · intro hj'
      exact absurd (Finset.mem_range.mpr hj) hj'
  rw [hmm, sub_self, map_zero]
  unfold tol
  norm_num

theorem diagNeg_abs_02 : Complex.abs (diagNeg 0 2) < tol := by
  have h : diagNeg 0 2 = 0 := rfl
  rw [h, map_zero]
  unfold tol
  norm_num

theorem diagNeg_abs_01 : Complex.abs (diagNeg 0 1) < tol := by
  have h : diagNeg 0 1 = 0 := rfl
  rw [h, map_zero]
  unfold tol
  norm_num

theorem two_level_decompose_diagNeg3 :
    two_level_decompose 3 diagNeg =
      .ok [⟨fun r c => diagNeg (1 + r) (1 + c), 3, 1, 2⟩] := by
  unfold two_level_decompose
  rw [if_pos (is_unitary_diagNeg 3)]
  rw [show sweepIndices 3 = [(0, 2), (0, 1)] from by decide]
  rw [sweepRun_cons, @elimStep_skip 3 (diagNeg, []) (0, 2) diagNeg_abs_02, exCase_ok,
      sweepRun_cons, @elimStep_skip 3 (diagNeg, []) (0, 1) diagNeg_abs_01, exCase_ok,
      sweepRun_nil, exCase_ok]
  unfold mkTLU
  rw [if_pos (show 3 - 2 < 3 - 1 ∧ 3 - 1 < 3 by norm_num), exCase_ok]
  rfl

/-- **C2 (code bug)**: `diag(-1, 1, 1)` is unitary, `two_level_decompose`
returns a single identity-block factor, and the product of the returned
factors differs from the input by `2` at entry `(0, 0)` — far outside the
`1e-9` round-trip tolerance claimed by the function's own docstring. -/
theorem c2_round_trip_fails :
    is_unitary 3 diagNeg ∧
      ∃ l, two_level_decompose 3 diagNeg = .ok l ∧
        tol < Complex.abs (tluProduct 3 l 0 0 - diagNeg 0 0) := by
  refine ⟨is_unitary_diagNeg 3, [⟨fun r c => diagNeg (1 + r) (1 + c), 3, 1, 2⟩],
    two_level_decompose_diagNeg3, ?_⟩
  have hprod : tluProduct 3 [(⟨fun r c => diagNeg (1 + r) (1 + c), 3, 1, 2⟩ :
      TwoLevelUnitary)] 0 0 = 1 := by
    unfold tluProduct
    show matMul 3 matId (TwoLevelUnitary.full _) 0 0 = 1
    unfold matMul matId TwoLevelUnitary.full
    rw [Finset.sum_eq_single 0]
    · norm_num
    · intro k _ hk
      rw [if_neg (Ne.symm hk), zero_mul]
    · intro h0
      exact absurd (Finset.mem_range.mpr (by norm_num)) h0
  rw [hprod]
  have hd : diagNeg 0 0 = -1 := rfl
  rw [hd]
  unfold tol
  rw [show (1 : ℂ) - -1 = 2 by ring]
  rw [show (2 : ℂ) = ((2 : ℝ) : ℂ) by norm_num, Complex.abs_ofReal]
  norm_num

/-! ### C5: the eliminating matrix -/

theorem mat2_e00 (a b c d : ℂ) : mat2 a b c d 0 0 = a := rfl

theorem mat2_e01 (a b c d : ℂ) : mat2 a b c d 0 1 = b := rfl

theorem mat2_e10 (a b c d : ℂ) : mat2 a b c d 1 0 = c := rfl

theorem mat2_e11 (a b c d : ℂ) : mat2 a b c d 1 1 = d := rfl

theorem matMul_two (A B : Mat) (i j : ℕ) :
    matMul 2 A B i j = A i 0 * B 0 j + A i 1 * B 1 j := by
  unfold matMul
  rw [Finset.sum_range_succ, Finset.sum_range_succ, Finset.sum_range_zero, zero_add]

theorem conjTrans_apply (A : Mat) (i j : ℕ) :
    conjTrans A i j = starRingEnd ℂ (A j i) := rfl

theorem exp_neg_mul_self (z : ℂ) : Complex.exp (-z) * Complex.exp z = 1 := by
  rw [← Complex.exp_add, neg_add_cancel, Complex.exp_zero]

theorem exp_mul_neg_self (z : ℂ) : Complex.exp z * Complex.exp (-z) = 1 := by
  rw [← Complex.exp_add, add_neg_cancel, Complex.exp_zero]

theorem conj_real_mul_exp (r t : ℝ) :
    starRingEnd ℂ ((r : ℂ) * Complex.exp ((t : ℝ) * Complex.I)) =
      (r : ℂ) * Complex.exp (-((t : ℝ) * Complex.I)) := by
  rw [map_mul, Complex.conj_ofReal, ← Complex.exp_conj]
  congr 1
  rw [map_mul, Complex.conj_ofReal, Complex.conj_I]
  ring

theorem conj_real_mul_exp_neg (r t : ℝ) :
    starRingEnd ℂ ((r : ℂ) * Complex.exp (-((t : ℝ) * Complex.I))) =
      (r : ℂ) * Complex.exp ((t : ℝ) * Complex.I) := by
  rw [map_mul, Complex.conj_ofReal, ← Complex.exp_conj]
  congr 1
  rw [map_neg, map_mul, Complex.conj_ofReal, Complex.conj_I]
  ring

theorem eliminationMat_e00 (a b : ℂ) : eliminationMat a b 0 0 =
    (Real.cos (Real.arctan (Complex.abs (b / a))) : ℂ) *
      Complex.exp ((-(Complex.arg a) : ℝ) * Complex.I) := rfl

theorem eliminationMat_e01 (a b : ℂ) : eliminationMat a b 0 1 =
    (Real.sin (Real.arctan (Complex.abs (b / a))) : ℂ) *
      Complex.exp ((Real.pi + Complex.arg b - Complex.arg a - -(Complex.arg a) : ℝ) *
        Complex.I) := rfl

theorem eliminationMat_e10 (a b : ℂ) : eliminationMat a b 1 0 =
    -((Real.sin (Real.arctan (Complex.abs (b / a))) : ℂ) *
      Complex.exp (-((Real.pi + Complex.arg b - Complex.arg a - -(Complex.arg a) : ℝ) *
        Complex.I))) := rfl

theorem eliminationMat_e11 (a b : ℂ) : eliminationMat a b 1 1 =
    (Real.cos (Real.arctan (Complex.abs (b / a))) : ℂ) *
      Complex.exp (-((-(Complex.arg a) : ℝ) * Complex.I)) := rfl

/-- The real trigonometric core: with `θ = arctan (β/α)`,
`α·sin θ = β·cos θ`. -/
theorem elim_key1 {al be : ℝ} (hal : 0 < al) :
    al * Real.sin (Real.arctan (be / al)) = be * Real.cos (Real.arctan (be / al)) := by
  rw [Real.sin_arctan, Real.cos_arctan]
  have hs : Real.sqrt (1 + (be / al) ^ 2) ≠ 0 := by positivity
  field_simp
  ring

/-- The real trigonometric core: with `θ = arctan (β/α)`,
`α·cos θ + β·sin θ = √(α² + β²)`. -/
theorem elim_key2 {al be : ℝ} (hal : 0 < al) :
    al * Real.cos (Real.arctan (be / al)) + be * Real.sin (Real.arctan (be / al)) =
      Real.sqrt (al ^ 2 + be ^ 2) := by
  rw [Real.cos_arctan, Real.sin_arctan]
  have h1 : 1 + (be / al) ^ 2 = (al ^ 2 + be ^ 2) / al ^ 2 := by
    field_simp
  rw [h1, Real.sqrt_div (by positivity) _, Real.sqrt_sq hal.le]
  have hS2 : Real.sqrt (al ^ 2 + be ^ 2) ^ 2 = al ^ 2 + be ^ 2 :=
    Real.sq_sqrt (by positivity)
  have hSne : Real.sqrt (al ^ 2 + be ^ 2) ≠ 0 := by positivity
  field_simp
  ring

/-- Exact special unitarity of the eliminating matrix and its action on the
row vector `[a, b]`: determinant 1, `U†U = I`, second component annihilated,
first component the positive real `√(|a|² + |b|²)`. -/
theorem eliminationMat_spec (a b : ℂ) (ha : a ≠ 0) (hb : b ≠ 0) :
    det2 (eliminationMat a b) = 1 ∧
      (∀ i < 2, ∀ j < 2,
        matMul 2 (conjTrans (eliminationMat a b)) (eliminationMat a b) i j = matId i j) ∧
      eliminationMat a b 0 0 * a + eliminationMat a b 1 0 * b =
        ((Real.sqrt (Complex.abs a ^ 2 + Complex.abs b ^ 2) : ℝ) : ℂ) ∧
      eliminationMat a b 0 1 * a + eliminationMat a b 1 1 * b = 0 := by
  have hal : 0 < Complex.abs a := Complex.abs.pos ha
  have hbe : 0 < Complex.abs b := Complex.abs.pos hb
  have habdiv : Complex.abs (b / a) = Complex.abs b / Complex.abs a := map_div₀ Complex.abs b a
  set th := Real.arctan (Complex.abs (b / a)) with hth
  set A := Complex.arg a with hA
  set B := Complex.arg b with hB
  -- the five entry values, with `mu` simplified to `π + arg b`
  have hmu : Real.pi + B - A - -A = Real.pi + B := by ring
  have he00 : eliminationMat a b 0 0 =
      (Real.cos th : ℂ) * Complex.exp ((-A : ℝ) * Complex.I) := eliminationMat_e00 a b
  have he01 : eliminationMat a b 0 1 =
      (Real.sin th : ℂ) * Complex.exp ((Real.pi + B : ℝ) * Complex.I) := by
    rw [eliminationMat_e01 a b, ← hA, ← hB, hmu]
  have he10 : eliminationMat a b 1 0 =
      -((Real.sin th : ℂ) * Complex.exp (-((Real.pi + B : ℝ) * Complex.I))) := by
    rw [eliminationMat_e10 a b, ← hA, ← hB, hmu]
  have he11 : eliminationMat a b 1 1 =
      (Real.cos th : ℂ) * Complex.exp (-((-A : ℝ) * Complex.I)) := eliminationMat_e11 a b
  -- polar decompositions and exponential identities
  have hae : (Complex.abs a : ℂ) * Complex.exp ((A : ℝ) * Complex.I) = a :=
    Complex.abs_mul_exp_arg_mul_I a
  have hbe' : (Complex.abs b : ℂ) * Complex.exp ((B : ℝ) * Complex.I) = b :=
    Complex.abs_mul_exp_arg_mul_I b
  have hE1 : Complex.exp ((-A : ℝ) * Complex.I) * Complex.exp ((A : ℝ) * Complex.I) = 1 := by
    rw [← Complex.exp_add]
    have h : ((-A : ℝ) : ℂ) * Complex.I + (A : ℝ) * Complex.I = 0 := by push_cast; ring
    rw [h, Complex.exp_zero]
  have hE2 : Complex.exp (-(((Real.pi + B : ℝ) : ℂ) * Complex.I)) *
      Complex.exp ((B : ℝ) * Complex.I) = -1 := by
    rw [← Complex.exp_add]
    have h : -(((Real.pi + B : ℝ) : ℂ) * Complex.I) + (B : ℝ) * Complex.I =
        -((Real.pi : ℝ) * Complex.I) := by push_cast; ring
    rw [h, Complex.exp_neg, Complex.exp_pi_mul_I]
    norm_num
  have hE3 : Complex.exp (((Real.pi + B : ℝ) : ℂ) * Complex.I) =
      -Complex.exp ((B : ℝ) * Complex.I) := by
    have h : ((Real.pi + B : ℝ) : ℂ) * Complex.I =
        (Real.pi : ℝ) * Complex.I + (B : ℝ) * Complex.I := by push_cast; ring
    rw [h, Complex.exp_add, Complex.exp_pi_mul_I]
    ring
  have hE4 : Complex.exp (-(((-A : ℝ) : ℂ) * Complex.I)) =
      Complex.exp ((A : ℝ) * Complex.I) := by
    congr 1
    push_cast
    ring
  -- the real keys, cast to ℂ
  have hthd : th = Real.arctan (Complex.abs b / Complex.abs a) := by rw [hth, habdiv]
  have hk1R : Complex.abs a * Real.sin th = Complex.abs b * Real.cos th := by
    rw [hthd]
    exact elim_key1 hal
  have hk2R : Complex.abs a * Real.cos th + Complex.abs b * Real.sin th =
      Real.sqrt (Complex.abs a ^ 2 + Complex.abs b ^ 2) := by
    rw [hthd]
    exact elim_key2 hal
  have hk1 : ((Complex.abs a : ℝ) : ℂ) * (Real.sin th : ℂ) =
      ((Complex.abs b : ℝ) : ℂ) * (Real.cos th : ℂ) := by
    rw [← Complex.ofReal_mul, ← Complex.ofReal_mul, hk1R]
  have hk2 : ((Complex.abs a : ℝ) : ℂ) * (Real.cos th : ℂ) +
      ((Complex.abs b : ℝ) : ℂ) * (Real.sin th : ℂ) =
      ((Real.sqrt (Complex.abs a ^ 2 + Complex.abs b ^ 2) : ℝ) : ℂ) := by
    rw [← Complex.ofReal_mul, ← Complex.ofReal_mul, ← Complex.ofReal_add, hk2R]
  have hpyth : ((Real.cos th : ℂ)) ^ 2 + ((Real.sin th : ℂ)) ^ 2 = 1 := by
    rw [← Complex.ofReal_pow, ← Complex.ofReal_pow, ← Complex.ofReal_add,
        Real.cos_sq_add_sin_sq, Complex.ofReal_one]
  refine ⟨?_, ?_, ?_, ?_⟩
  · -- determinant
    unfold det2
    rw [he00, he01, he10, he11]
    linear_combination ((Real.cos th : ℂ)) ^ 2 * exp_mul_neg_self (((-A : ℝ) : ℂ) * Complex.I) +
      ((Real.sin th : ℂ)) ^ 2 * exp_mul_neg_self (((Real.pi + B : ℝ) : ℂ) * Complex.I) + hpyth
  · -- exact unitarity
    intro i hi j hj
    rw [matMul_two, conjTrans_apply, conjTrans_apply]
    interval_cases i <;> interval_cases j <;>
      simp only [he00, he01, he10, he11, map_neg, conj_real_mul_exp,
        conj_real_mul_exp_neg] <;>
      unfold matId
    · rw [if_pos rfl]
      linear_combination ((Real.cos th : ℂ)) ^ 2 *
          exp_neg_mul_self (((-A : ℝ) : ℂ) * Complex.I) +
        ((Real.sin th : ℂ)) ^ 2 * exp_mul_neg_self (((Real.pi + B : ℝ) : ℂ) * Complex.I) + hpyth
    · rw [if_neg (by norm_num)]
      ring
    · rw [if_neg (by norm_num)]
      ring
    · rw [if_pos rfl]
      linear_combination ((Real.sin th : ℂ)) ^ 2 *
          exp_neg_mul_self (((Real.pi + B : ℝ) : ℂ) * Complex.I) +
        ((Real.cos th : ℂ)) ^ 2 * exp_mul_neg_self (((-A : ℝ) : ℂ) * Complex.I) + hpyth
  · -- first row component: the positive real `√(|a|² + |b|²)`
    rw [he00, he10]
    linear_combination (-((Real.cos th : ℂ)) * Complex.exp (((-A : ℝ) : ℂ) * Complex.I)) * hae +
      ((Real.sin th : ℂ) * Complex.exp (-(((Real.pi + B : ℝ) : ℂ) * Complex.I))) * hbe' +
      ((Real.cos th : ℂ) * (Complex.abs a : ℂ)) * hE1 +
      (-((Real.sin th : ℂ)) * (Complex.abs b : ℂ)) * hE2 + hk2
  · -- second row component: annihilated
    rw [he01, he11]
    linear_combination ((Real.sin th : ℂ) * a) * hE3 + ((Real.cos th : ℂ) * b) * hE4 +
      (-(Complex.exp (((A : ℝ) : ℂ) * Complex.I) *
        Complex.exp (((B : ℝ) : ℂ) * Complex.I))) * hk1 +
      ((Real.sin th : ℂ) * Complex.exp (((B : ℝ) : ℂ) * Complex.I)) * hae +
      (-((Real.cos th : ℂ) * Complex.exp (((A : ℝ) : ℂ) * Complex.I))) * hbe'

/-- **C5 counterexample**: the claim quantifies over all nonzero `a`, `b`, but
`make_eliminating_matrix` asserts magnitudes strictly above `1e-9`: at the
nonzero input `a = b = 1e-10` it fails its magnitude assertion and returns no
matrix at all. -/
theorem c5_tiny_nonzero_rejected :
    ((1e-10 : ℝ) : ℂ) ≠ 0 ∧
      make_eliminating_matrix ((1e-10 : ℝ) : ℂ) ((1e-10 : ℝ) : ℂ) =
        .error .assertMagnitude := by
  constructor
  · rw [Ne, Complex.ofReal_eq_zero]
    norm_num
  · unfold make_eliminating_matrix
    rw [if_neg]
    rintro ⟨h1, -⟩
    rw [Complex.abs_ofReal] at h1
    unfold tol at h1
    rw [abs_of_pos (by norm_num)] at h1
    norm_num at h1

/-- **C5 (amended)**: for `a`, `b` of magnitude strictly greater than `1e-9`
(the magnitudes the internal assertion admits), `make_eliminating_matrix a b`
returns the matrix built from `θ = atan|b/a|`, `λ = −arg a`,
`μ = π + arg b − arg a − λ`; that matrix is exactly special-unitary
(`U†U = I` and `det U = 1`), and `[a, b]·U` has second component exactly `0`
and first component the strictly positive real `√(|a|² + |b|²)` (zero
phase). -/
theorem c5_eliminating_matrix (a b : ℂ) (ha : tol < Complex.abs a)
    (hb : tol < Complex.abs b) :
    make_eliminating_matrix a b = .ok (eliminationMat a b) ∧
      det2 (eliminationMat a b) = 1 ∧
      (∀ i < 2, ∀ j < 2,
        matMul 2 (conjTrans (eliminationMat a b)) (eliminationMat a b) i j = matId i j) ∧
      eliminationMat a b 0 0 * a + eliminationMat a b 1 0 * b =
        ((Real.sqrt (Complex.abs a ^ 2 + Complex.abs b ^ 2) : ℝ) : ℂ) ∧
      0 < Real.sqrt (Complex.abs a ^ 2 + Complex.abs b ^ 2) ∧
      eliminationMat a b 0 1 * a + eliminationMat a b 1 1 * b = 0 := by
  have htolpos : (0 : ℝ) < tol := by unfold tol; norm_num
  have ha0 : a ≠ 0 := by
    intro h
    rw [h, map_zero] at ha
    linarith
  have hb0 : b ≠ 0 := by
    intro h
    rw [h, map_zero] at hb
    linarith
  obtain ⟨hdet, huni, hrow1, hrow0⟩ := eliminationMat_spec a b ha0 hb0
  have hal : 0 < Complex.abs a := Complex.abs.pos ha0
  have hSpos : 0 < Real.sqrt (Complex.abs a ^ 2 + Complex.abs b ^ 2) :=
    Real.sqrt_pos.mpr (by positivity)
  have hsu : is_special_unitary (eliminationMat a b) := by
    constructor
    · intro i hi j hj
      rw [huni i hi j hj, sub_self, map_zero]
      exact htolpos.le
    · rw [hdet, sub_self, map_zero]
      exact htolpos.le
  have hangle : |Complex.arg (eliminationMat a b 0 0 * a + eliminationMat a b 1 0 * b)| ≤ tol := by
    rw [hrow1, Complex.arg_ofReal_of_nonneg (Real.sqrt_nonneg _), abs_zero]
    exact htolpos.le
  have hzero : Complex.abs (eliminationMat a b 0 1 * a + eliminationMat a b 1 1 * b) < tol := by
    rw [hrow0, map_zero]
    exact htolpos
  refine ⟨?_, hdet, huni, hrow1, hSpos, hrow0⟩
  unfold make_eliminating_matrix
  rw [if_pos ⟨ha, hb⟩, if_pos hsu, if_pos hangle, if_pos hzero]

/-- C5 witness: the amended statement at `a = b = 1`. -/
theorem c5_witness :
    tol < Complex.abs (1 : ℂ) ∧
      (make_eliminating_matrix 1 1 = .ok (eliminationMat 1 1) ∧
        det2 (eliminationMat 1 1) = 1 ∧
        (∀ i < 2, ∀ j < 2,
          matMul 2 (conjTrans (eliminationMat 1 1)) (eliminationMat 1 1) i j = matId i j) ∧
        eliminationMat 1 1 0 0 * 1 + eliminationMat 1 1 1 0 * 1 =
          ((Real.sqrt (Complex.abs (1 : ℂ) ^ 2 + Complex.abs (1 : ℂ) ^ 2) : ℝ) : ℂ) ∧
        0 < Real.sqrt (Complex.abs (1 : ℂ) ^ 2 + Complex.abs (1 : ℂ) ^ 2) ∧
        eliminationMat 1 1 0 1 * 1 + eliminationMat 1 1 1 1 * 1 = 0) := by
  have h1 : tol < Complex.abs (1 : ℂ) := by
    rw [map_one]
    unfold tol
    norm_num
  exact ⟨h1, c5_eliminating_matrix 1 1 h1 h1⟩

/-! ### C7: guards of the elimination sweep -/

theorem matMul_three (A B : Mat) (i j : ℕ) :
    matMul 3 A B i j = A i 0 * B 0 j + A i 1 * B 1 j + A i 2 * B 2 j := by
  unfold matMul
  rw [Finset.sum_range_succ, Finset.sum_range_succ, Finset.sum_range_succ,
      Finset.sum_range_zero, zero_add]

theorem make_eliminating_magnitude_error {a b : ℂ}
    (h : make_eliminating_matrix a b = .error .assertMagnitude) :
    ¬(tol < Complex.abs a ∧ tol < Complex.abs b) := by
  intro hmag
  unfold make_eliminating_matrix at h
  rw [if_pos hmag] at h
  by_cases h1 : is_special_unitary (eliminationMat a b)
  · rw [if_pos h1] at h
    by_cases h2 : |Complex.arg (eliminationMat a b 0 0 * a + eliminationMat a b 1 0 * b)| ≤ tol
    · rw [if_pos h2] at h
      by_cases h3 : Complex.abs (eliminationMat a b 0 1 * a + eliminationMat a b 1 1 * b) < tol
      · rw [if_pos h3] at h
        exact Except.noConfusion h
      · rw [if_neg h3] at h
        injection h with h
        exact Err.noConfusion h
    · rw [if_neg h2] at h
      injection h with h
      exact Err.noConfusion h
  · rw [if_neg h1] at h
    injection h with h
    exact Err.noConfusion h

/-- **C7 (amended)**: in the elimination sweep, a target entry of magnitude at
least `1e-9` is never skipped; a pivot of magnitude below `1e-9` makes the
step use the pure bit-flip `PAULI_X`; consequently `make_eliminating_matrix`
is only reached with both magnitudes at least `1e-9` — and since its internal
assertion demands *strictly* greater than `1e-9`, the step can only fail its
magnitude assertion when one of the two magnitudes equals `1e-9` exactly. -/
theorem c7_elimination_guards (n : ℕ) (A : Mat) (acc : List TwoLevelUnitary)
    (i j : ℕ) (htarget : tol ≤ Complex.abs (A i j)) :
    (∀ res, elimStep n (A, acc) (i, j) = .ok res → ∃ t, res.2 = acc ++ [t]) ∧
      (Complex.abs (A i (j - 1)) < tol → j - 1 < j → j < n →
        elimStep n (A, acc) (i, j) = .ok
          (matMul n A (TwoLevelUnitary.full ⟨PAULI_X, n, j - 1, j⟩),
            acc ++ [TwoLevelUnitary.inv ⟨PAULI_X, n, j - 1, j⟩])) ∧
      (elimStep n (A, acc) (i, j) = .error .assertMagnitude →
        tol ≤ Complex.abs (A i (j - 1)) ∧
          (Complex.abs (A i (j - 1)) = tol ∨ Complex.abs (A i j) = tol)) := by
  have hns : ¬ Complex.abs ((A, acc).1 (i, j).1 (i, j).2) < tol := not_lt.mpr htarget
  refine ⟨?_, ?_, ?_⟩
  · intro res hres
    unfold elimStep at hres
    rw [if_neg hns] at hres
    obtain ⟨u2, -, hres2⟩ := exCase_eq_ok hres
    obtain ⟨t, -, hres3⟩ := exCase_eq_ok hres2
    injection hres3 with hres3
    rw [← hres3]
    exact ⟨t.inv, rfl⟩
  · intro hpiv h1 h2
    unfold elimStep
    rw [if_neg hns,
      if_pos (show Complex.abs ((A, acc).1 (i, j).1 ((i, j).2 - 1)) < tol from hpiv),
      exCase_ok]
    unfold mkTLU
    rw [if_pos (show (i, j).2 - 1 < (i, j).2 ∧ (i, j).2 < n from ⟨h1, h2⟩), exCase_ok]
  · intro herr
    unfold elimStep at herr
    rw [if_neg hns] at herr
    by_cases hpiv : Complex.abs ((A, acc).1 (i, j).1 ((i, j).2 - 1)) < tol
    · rw [if_pos hpiv, exCase_ok] at herr
      unfold mkTLU at herr
      by_cases hidx : (i, j).2 - 1 < (i, j).2 ∧ (i, j).2 < n
      · rw [if_pos hidx, exCase_ok] at herr
        exact Except.noConfusion herr
      · rw [if_neg hidx, exCase_error] at herr
        injection herr with h
        exact Err.noConfusion h
    · rw [if_neg hpiv] at herr
      have hple : tol ≤ Complex.abs (A i (j - 1)) := not_lt.mp hpiv
      refine ⟨hple, ?_⟩
      cases hm : make_eliminating_matrix ((A, acc).1 (i, j).1 ((i, j).2 - 1))
          ((A, acc).1 (i, j).1 (i, j).2) with
      | ok u2 =>
        rw [hm, exCase_ok] at herr
        unfold mkTLU at herr
        by_cases hidx : (i, j).2 - 1 < (i, j).2 ∧ (i, j).2 < n
        · rw [if_pos hidx, exCase_ok] at herr
          exact Except.noConfusion herr
        · rw [if_neg hidx, exCase_error] at herr
          injection herr with h
          exact Err.noConfusion h
      | error e =>
        rw [hm, exCase_error] at herr
        injection herr with h
        rw [h] at hm
        have hnot := make_eliminating_magnitude_error hm
        rcases not_and_or.mp hnot with h' | h'
        · exact Or.inl (le_antisymm (not_lt.mp h') hple)
        · exact Or.inr (le_antisymm (not_lt.mp h') htarget)

theorem elimStep_error_assertMagnitude {n : ℕ} {st : Mat × List TwoLevelUnitary}
    {ij : ℕ × ℕ}
    (h1 : ¬ Complex.abs (st.1 ij.1 ij.2) < tol)
    (h2 : ¬ Complex.abs (st.1 ij.1 (ij.2 - 1)) < tol)
    (h3 : ¬ (tol < Complex.abs (st.1 ij.1 (ij.2 - 1)) ∧ tol < Complex.abs (st.1 ij.1 ij.2))) :
    elimStep n st ij = .error .assertMagnitude := by
  unfold elimStep
  rw [if_neg h1, if_neg h2]
  unfold make_eliminating_matrix
  rw [if_neg h3, exCase_error]

theorem abs_boundary_entry : Complex.abs ((1e-9 : ℝ) : ℂ) = 1e-9 := by
  rw [Complex.abs_ofReal]
  exact abs_of_pos (by norm_num)

theorem matId_ofReal (i j : ℕ) :
    matId i j = (((if i = j then (1 : ℝ) else 0) : ℝ) : ℂ) := by
  unfold matId
  split_ifs <;> norm_num

theorem is_unitary_boundaryMat : is_unitary 3 boundaryMat := by
  have hgram : ∀ i j : ℕ, matMul 3 (conjTrans boundaryMat) boundaryMat i j =
      ((boundaryMatR 0 i * boundaryMatR 0 j + boundaryMatR 1 i * boundaryMatR 1 j +
        boundaryMatR 2 i * boundaryMatR 2 j : ℝ) : ℂ) := by
    intro i j
    rw [matMul_three]
    unfold conjTrans boundaryMat
    rw [Complex.conj_ofReal, Complex.conj_ofReal, Complex.conj_ofReal]
    push_cast
    ring
  intro i hi j hj
  rw [hgram i j, matId_ofReal, ← Complex.ofReal_sub, Complex.abs_ofReal]
  unfold tol boundaryMatR
  interval_cases i <;> interval_cases j <;>
    (rw [abs_le]; constructor <;> norm_num)

/-- **C7 counterexample**: `boundaryMat` passes the `1e-9` unitarity check
(its unitarity defect is `2·10⁻¹⁸`), its target entry `(0, 2)` has magnitude
exactly `1e-9` (so the step is not skipped), its pivot `(0, 1)` has magnitude
exactly `1e-9` (so the swap fallback is not taken), and
`make_eliminating_matrix`'s assertion — which demands magnitudes *strictly*
greater than `1e-9` — fails: `two_level_decompose` dies with the magnitude
assertion on a unitary input. -/
theorem c7_assert_fires_at_threshold :
    is_unitary 3 boundaryMat ∧
      two_level_decompose 3 boundaryMat = .error .assertMagnitude := by
  refine ⟨is_unitary_boundaryMat, ?_⟩
  have habs2 : Complex.abs (boundaryMat 0 2) = 1e-9 := by
    show Complex.abs ((1e-9 : ℝ) : ℂ) = 1e-9
    exact abs_boundary_entry
  have habs1 : Complex.abs (boundaryMat 0 1) = 1e-9 := by
    show Complex.abs ((1e-9 : ℝ) : ℂ) = 1e-9
    exact abs_boundary_entry
  have h1 : ¬ Complex.abs (boundaryMat 0 2) < tol := by
    rw [habs2]
    unfold tol
    norm_num
  have h2 : ¬ Complex.abs (boundaryMat 0 1) < tol := by
    rw [habs1]
    unfold tol
    norm_num
  have h3 : ¬ (tol < Complex.abs (boundaryMat 0 1) ∧ tol < Complex.abs (boundaryMat 0 2)) := by
    rintro ⟨h, -⟩
    rw [habs1] at h
    unfold tol at h
    norm_num at h
  unfold two_level_decompose
  rw [if_pos is_unitary_boundaryMat]
  rw [show sweepIndices 3 = [(0, 2), (0, 1)] from by decide]
  rw [sweepRun_cons,
    @elimStep_error_assertMagnitude 3 (boundaryMat, []) (0, 2) h1 h2 h3,
    exCase_error, exCase_error]

/-- C7 witness: the amended statement at `n = 2`, `A = I`, entry `(1, 1)`
(target magnitude `1`, pivot magnitude `0`). -/
theorem c7_witness :
    tol ≤ Complex.abs (matId 1 1) ∧
      ((∀ res, elimStep 2 (matId, []) (1, 1) = .ok res → ∃ t, res.2 = [] ++ [t]) ∧
        (Complex.abs (matId 1 (1 - 1)) < tol → 1 - 1 < 1 → 1 < 2 →
          elimStep 2 (matId, []) (1, 1) = .ok
            (matMul 2 matId (TwoLevelUnitary.full ⟨PAULI_X, 2, 1 - 1, 1⟩),
              [] ++ [TwoLevelUnitary.inv ⟨PAULI_X, 2, 1 - 1, 1⟩])) ∧
        (elimStep 2 (matId, []) (1, 1) = .error .assertMagnitude →
          tol ≤ Complex.abs (matId 1 (1 - 1)) ∧
            (Complex.abs (matId 1 (1 - 1)) = tol ∨ Complex.abs (matId 1 1) = tol))) := by
  have h : tol ≤ Complex.abs (matId 1 1) := by
    rw [show matId 1 1 = 1 from rfl, map_one]
    unfold tol
    norm_num
  exact ⟨h, c7_elimination_guards 2 matId [] 1 1 h⟩

/-! ### C8: products of two-level embeddings -/

theorem full_row_i1 {N i1 i2 : ℕ} (hne : i1 ≠ i2) (u : Mat) (k : ℕ) :
    TwoLevelUnitary.full ⟨u, N, i1, i2⟩ i1 k =
      if k = i1 then u 0 0 else if k = i2 then u 0 1 else 0 := by
  unfold TwoLevelUnitary.full
  by_cases h1 : k = i1
  · subst h1
    simp
  · by_cases h2 : k = i2
    · subst h2
      simp [hne, Ne.symm hne]
    · simp [h1, h2, Ne.symm h1]

theorem full_row_i2 {N i1 i2 : ℕ} (hne : i1 ≠ i2) (u : Mat) (k : ℕ) :
    TwoLevelUnitary.full ⟨u, N, i1, i2⟩ i2 k =
      if k = i1 then u 1 0 else if k = i2 then u 1 1 else 0 := by
  unfold TwoLevelUnitary.full
  by_cases h1 : k = i1
  · subst h1
    simp [hne, Ne.symm hne]
  · by_cases h2 : k = i2
    · subst h2
      simp [Ne.symm hne]
    · simp [h1, h2, Ne.symm h2, Ne.symm hne]

theorem full_row_other {N i1 i2 i : ℕ} (h1 : i ≠ i1) (h2 : i ≠ i2) (u : Mat) (k : ℕ) :
    TwoLevelUnitary.full ⟨u, N, i1, i2⟩ i k = if i = k then 1 else 0 := by
  unfold TwoLevelUnitary.full
  simp [h1, h2]

theorem sum_two_support (N i1 i2 : ℕ) (hne : i1 ≠ i2) (hi1 : i1 < N) (hi2 : i2 < N)
    (c1 c2 : ℂ) (g : ℕ → ℂ) :
    ∑ k ∈ Finset.range N, (if k = i1 then c1 else if k = i2 then c2 else 0) * g k =
      c1 * g i1 + c2 * g i2 := by
  have hfun : ∀ k, (if k = i1 then c1 else if k = i2 then c2 else 0) * g k =
      (if k = i1 then c1 * g i1 else 0) + (if k = i2 then c2 * g i2 else 0) := by
    intro k
    by_cases h1 : k = i1
    · subst h1
      rw [if_pos rfl, if_pos rfl, if_neg hne, add_zero]
    · by_cases h2 : k = i2
      · subst h2
        rw [if_neg h1, if_pos rfl, if_pos rfl, if_neg h1, zero_add]
      · rw [if_neg h1, if_neg h2, zero_mul, if_neg h1, if_neg h2, add_zero]
  rw [Finset.sum_congr rfl (fun k _ => hfun k), Finset.sum_add_distrib,
      Finset.sum_ite_eq' (Finset.range N) i1, Finset.sum_ite_eq' (Finset.range N) i2,
      if_pos (Finset.mem_range.mpr hi1), if_pos (Finset.mem_range.mpr hi2)]

theorem sum_delta_left (N i : ℕ) (hi : i < N) (g : ℕ → ℂ) :
    ∑ k ∈ Finset.range N, (if i = k then 1 else 0) * g k = g i := by
  have hfun : ∀ k, ((if i = k then 1 else 0) : ℂ) * g k =
      if k = i then g i else 0 := by
    intro k
    by_cases h : k = i
    · rw [h, if_pos rfl, one_mul, if_pos rfl]
    · rw [if_neg (fun hik => h hik.symm), zero_mul, if_neg h]
  rw [Finset.sum_congr rfl (fun k _ => hfun k),
      Finset.sum_ite_eq' (Finset.range N) i, if_pos (Finset.mem_range.mpr hi)]

theorem full_e_i1i1 (N i1 i2 : ℕ) (u : Mat) :
    TwoLevelUnitary.full ⟨u, N, i1, i2⟩ i1 i1 = u 0 0 := by
  unfold TwoLevelUnitary.full
  simp

theorem full_e_i1i2 {N i1 i2 : ℕ} (hne : i1 ≠ i2) (u : Mat) :
    TwoLevelUnitary.full ⟨u, N, i1, i2⟩ i1 i2 = u 0 1 := by
  unfold TwoLevelUnitary.full
  simp [Ne.symm hne]

theorem full_e_i2i1 {N i1 i2 : ℕ} (hne : i1 ≠ i2) (u : Mat) :
    TwoLevelUnitary.full ⟨u, N, i1, i2⟩ i2 i1 = u 1 0 := by
  unfold TwoLevelUnitary.full
  simp [hne, Ne.symm hne]

theorem full_e_i2i2 {N i1 i2 : ℕ} (hne : i1 ≠ i2) (u : Mat) :
    TwoLevelUnitary.full ⟨u, N, i1, i2⟩ i2 i2 = u 1 1 := by
  unfold TwoLevelUnitary.full
  simp [Ne.symm hne]

theorem full_col_other {N i1 i2 j : ℕ} (h1 : j ≠ i1) (h2 : j ≠ i2) (u : Mat) (k : ℕ) :
    TwoLevelUnitary.full ⟨u, N, i1, i2⟩ k j = if k = j then 1 else 0 := by
  unfold TwoLevelUnitary.full
  simp [h1, h2, Ne.symm h1, Ne.symm h2]

/-- Two two-level embeddings on the same index pair multiply blockwise. -/
theorem full_mul_full (u v : Mat) (N i1 i2 : ℕ) (h12 : i1 < i2) (h2N : i2 < N) :
    eqOn N
      (matMul N (TwoLevelUnitary.full ⟨u, N, i1, i2⟩) (TwoLevelUnitary.full ⟨v, N, i1, i2⟩))
      (TwoLevelUnitary.full ⟨mat2Mul u v, N, i1, i2⟩) := by
  have hne : i1 ≠ i2 := Nat.ne_of_lt h12
  have h1N : i1 < N := lt_trans h12 h2N
  intro i hi j hj
  unfold matMul
  by_cases hii1 : i = i1
  · rw [hii1,
      Finset.sum_congr rfl (fun k _ => by rw [full_row_i1 hne]),
      sum_two_support N i1 i2 hne h1N h2N (u 0 0) (u 0 1) _]
    by_cases hj1 : j = i1
    · rw [hj1, full_e_i1i1, full_e_i2i1 hne, full_e_i1i1]
      unfold mat2Mul
      rw [mat2_e00]
    · by_cases hj2 : j = i2
      · rw [hj2, full_e_i1i2 hne, full_e_i2i2 hne, full_e_i1i2 hne]
        unfold mat2Mul
        rw [mat2_e01]
      · rw [full_col_other hj1 hj2, full_col_other hj1 hj2,
          full_col_other hj1 hj2 (mat2Mul u v) i1]
        rw [if_neg (fun h => hj1 h.symm), if_neg (fun h => hj2 h.symm)]
        ring
  · by_cases hii2 : i = i2
    · rw [hii2,
        Finset.sum_congr rfl (fun k _ => by rw [full_row_i2 hne]),
        sum_two_support N i1 i2 hne h1N h2N (u 1 0) (u 1 1) _]
      by_cases hj1 : j = i1
      · rw [hj1, full_e_i1i1, full_e_i2i1 hne, full_e_i2i1 hne]
        unfold mat2Mul
        rw [mat2_e10]
      · by_cases hj2 : j = i2
        · rw [hj2, full_e_i1i2 hne, full_e_i2i2 hne, full_e_i2i2 hne]
          unfold mat2Mul
          rw [mat2_e11]
        · rw [full_col_other hj1 hj2, full_col_other hj1 hj2,
            full_col_other hj1 hj2 (mat2Mul u v) i2]
          rw [if_neg (fun h => hj1 h.symm), if_neg (fun h => hj2 h.symm)]
          ring
    · rw [Finset.sum_congr rfl
          (fun k _ => by rw [full_row_other hii1 hii2]),
        sum_delta_left N i hi _]
      rw [full_row_other hii1 hii2, full_row_other hii1 hii2]

/-- The two-level embedding of the 2×2 identity block is the identity. -/
theorem full_id_block (N i1 i2 : ℕ) :
    TwoLevelUnitary.full ⟨mat2 1 0 0 1, N, i1, i2⟩ = matId := by
  funext i j
  unfold TwoLevelUnitary.full matId mat2
  split_ifs with h1 h2 h3 h4 h5 <;> simp_all <;> omega

/-! ### C8: the gate algebra of the optimizer -/

theorem mat2Mul_mat2 (a b c d a' b' c' d' : ℂ) :
    mat2Mul (mat2 a b c d) (mat2 a' b' c' d') =
      mat2 (a * a' + b * c') (a * b' + b * d') (c * a' + d * c') (c * b' + d * d') := rfl

theorem mat2_congr {a b c d a' b' c' d' : ℂ} (h1 : a = a') (h2 : b = b')
    (h3 : c = c') (h4 : d = d') : mat2 a b c d = mat2 a' b' c' d' := by
  rw [h1, h2, h3, h4]

theorem gate2_X (x : ℝ) : Gate2.to_matrix ⟨"X", x⟩ = mat2 0 1 1 0 := by
  unfold Gate2.to_matrix
  rw [if_pos rfl]

theorem gate2_Rx (x : ℝ) : Gate2.to_matrix ⟨"Rx", x⟩ =
    mat2 (Real.cos (x / 2) : ℂ) (-(Complex.I * (Real.sin (x / 2) : ℂ)))
      (-(Complex.I * (Real.sin (x / 2) : ℂ))) (Real.cos (x / 2) : ℂ) := by
  unfold Gate2.to_matrix
  rw [if_neg (by simp), if_pos rfl]

theorem gate2_Ry (x : ℝ) : Gate2.to_matrix ⟨"Ry", x⟩ =
    mat2 (Real.cos (x / 2) : ℂ) (-(Real.sin (x / 2) : ℂ))
      (Real.sin (x / 2) : ℂ) (Real.cos (x / 2) : ℂ) := by
  unfold Gate2.to_matrix
  rw [if_neg (by simp), if_neg (by simp), if_pos rfl]

theorem gate2_Rz (x : ℝ) : Gate2.to_matrix ⟨"Rz", x⟩ =
    mat2 (Complex.exp (-(x / 2 : ℝ) * Complex.I)) 0
      0 (Complex.exp ((x / 2 : ℝ) * Complex.I)) := by
  unfold Gate2.to_matrix
  rw [if_neg (by simp), if_neg (by simp), if_neg (by simp), if_pos rfl]

theorem gate2_R1 (x : ℝ) : Gate2.to_matrix ⟨"R1", x⟩ =
    mat2 1 0 0 (Complex.exp ((x : ℝ) * Complex.I)) := by
  unfold Gate2.to_matrix
  rw [if_neg (by simp), if_neg (by simp), if_neg (by simp), if_neg (by simp),
    if_pos rfl]

theorem gate2_rot_mul (nm : String) (hnm : nm ∈ rotNames) (x y : ℝ) :
    mat2Mul (Gate2.to_matrix ⟨nm, y⟩) (Gate2.to_matrix ⟨nm, x⟩) =
      Gate2.to_matrix ⟨nm, x + y⟩ := by
  have h2 : (x + y) / 2 = x / 2 + y / 2 := by ring
  simp only [rotNames, List.mem_cons, List.not_mem_nil, or_false] at hnm
  rcases hnm with rfl | rfl | rfl | rfl
  · -- Rx
    rw [gate2_Rx, gate2_Rx, gate2_Rx, mat2Mul_mat2, h2, Real.cos_add, Real.sin_add]
    refine mat2_congr ?_ ?_ ?_ ?_ <;>
      simp only [Complex.ofReal_sub, Complex.ofReal_add, Complex.ofReal_mul]
    · linear_combination ((Real.sin (y / 2) : ℂ) * (Real.sin (x / 2) : ℂ)) * Complex.I_mul_I
    · ring
    · ring
    · linear_combination ((Real.sin (y / 2) : ℂ) * (Real.sin (x / 2) : ℂ)) * Complex.I_mul_I
  · -- Ry
    rw [gate2_Ry, gate2_Ry, gate2_Ry, mat2Mul_mat2, h2, Real.cos_add, Real.sin_add]
    refine mat2_congr ?_ ?_ ?_ ?_ <;>
      simp only [Complex.ofReal_sub, Complex.ofReal_add, Complex.ofReal_mul] <;> ring
  · -- Rz
    rw [gate2_Rz, gate2_Rz, gate2_Rz, mat2Mul_mat2]
    refine mat2_congr ?_ ?_ ?_ ?_
    · rw [mul_zero, add_zero, ← Complex.exp_add]
      congr 1
      push_cast
      ring
    · ring
    · ring
    · rw [zero_mul, zero_add, ← Complex.exp_add]
      congr 1
      push_cast
      ring
  · -- R1
    rw [gate2_R1, gate2_R1, gate2_R1, mat2Mul_mat2]
    refine mat2_congr ?_ ?_ ?_ ?_
    · ring
    · ring
    · ring
    · rw [zero_mul, zero_add, ← Complex.exp_add]
      congr 1
      push_cast
      ring

theorem gate2_X_mul (x y : ℝ) :
    mat2Mul (Gate2.to_matrix ⟨"X", y⟩) (Gate2.to_matrix ⟨"X", x⟩) = mat2 1 0 0 1 := by
  rw [gate2_X, gate2_X, mat2Mul_mat2]
  refine mat2_congr ?_ ?_ ?_ ?_ <;> norm_num

theorem gate2_rot_zero (nm : String) (hnm : nm ∈ rotNames) :
    Gate2.to_matrix ⟨nm, 0⟩ = mat2 1 0 0 1 := by
  simp only [rotNames, List.mem_cons, List.not_mem_nil, or_false] at hnm
  rcases hnm with rfl | rfl | rfl | rfl
  · rw [gate2_Rx]
    refine mat2_congr ?_ ?_ ?_ ?_ <;> norm_num
  · rw [gate2_Ry]
    refine mat2_congr ?_ ?_ ?_ ?_ <;> norm_num
  · rw [gate2_Rz]
    refine mat2_congr ?_ ?_ ?_ ?_ <;> norm_num [Complex.exp_zero]
  · rw [gate2_R1]
    refine mat2_congr ?_ ?_ ?_ ?_ <;> norm_num [Complex.exp_zero]

theorem mat2_id_apply (r c : ℕ) :
    mat2 1 0 0 1 r c = if r = c ∧ r < 2 then 1 else 0 := by
  unfold mat2
  rcases r with - | - | r <;> rcases c with - | - | c <;> simp <;>
    first
      | omega
      | rw [if_neg (by omega)]

/-- `GateSingle.to_matrix` of an identity `Gate2` is the identity truncated to
the register dimension. -/
theorem single_id_apply (g2 : Gate2) (hg2 : g2.to_matrix = mat2 1 0 0 1)
    (qid qc : ℕ) (hq : qid < qc) (k j : ℕ) (hk : k < 2 ^ qc) (hj : j < 2 ^ qc) :
    GateSingle.to_matrix g2 qid qc k j = if k = j then 1 else 0 := by
  unfold GateSingle.to_matrix
  rw [hg2]
  have hTB : 2 ^ (qid + 1) * 2 ^ (qc - qid - 1) = 2 ^ qc := by
    rw [← pow_add]
    congr 1
    omega
  by_cases h0 : qid = 0
  · subst h0
    rw [if_pos rfl]
    simp only [zero_add, pow_one] at hTB ⊢
    have h2qc : 2 ^ qc = 2 * 2 ^ (qc - 0 - 1) := by omega
    rw [mat2_id_apply]
    by_cases hkj : k = j
    · rw [hkj, if_pos ⟨rfl, by omega⟩, if_pos ⟨rfl, by omega⟩, if_pos rfl]
    · rw [if_neg hkj]
      by_cases hdiv : k / 2 = j / 2 ∧ k / 2 < 2 ^ (qc - 0 - 1)
      · rw [if_pos hdiv, if_neg]
        rintro ⟨hc1, -⟩
        refine hkj ?_
        obtain ⟨hd1, -⟩ := hdiv
        omega
      · rw [if_neg hdiv]
  · rw [if_neg h0]
    set T := 2 ^ (qid + 1) with hT
    set P := 2 ^ qid with hP
    have hT2 : T = 2 * P := by rw [hT, hP, pow_succ]; ring
    have hTd2 : T / 2 = P := by omega
    have hPpos : 0 < P := Nat.pos_pow_of_pos qid (by norm_num)
    have hTpos : 0 < T := by omega
    rw [hTd2, mat2_id_apply]
    by_cases hkj : k = j
    · subst hkj
      have hjT : k / T < 2 ^ (qc - qid - 1) := by
        rw [Nat.div_lt_iff_lt_mul hTpos, mul_comm, hTB]
        exact hk
      have hmP : k % T / P < 2 := by
        rw [Nat.div_lt_iff_lt_mul hPpos, ← hT2]
        exact Nat.mod_lt k hTpos
      rw [if_pos ⟨rfl, hjT⟩, if_pos rfl, if_pos ⟨rfl, hmP⟩, if_pos rfl]
    · rw [if_neg hkj]
      by_cases houter : k / T = j / T ∧ k / T < 2 ^ (qc - qid - 1)
      · obtain ⟨ho1, ho2⟩ := houter
        rw [if_pos ⟨ho1, ho2⟩]
        by_cases hmod : k % T % P = j % T % P
        · rw [if_pos hmod, if_neg]
          rintro ⟨hq1, -⟩
          apply hkj
          calc k = T * (k / T) + k % T := (Nat.div_add_mod k T).symm
            _ = T * (j / T) + (P * (k % T / P) + k % T % P) := by
                rw [ho1, Nat.div_add_mod]
            _ = T * (j / T) + (P * (j % T / P) + j % T % P) := by rw [hq1, hmod]
            _ = T * (j / T) + j % T := by rw [Nat.div_add_mod]
            _ = j := Nat.div_add_mod j T
        · rw [if_neg hmod]
      · rw [if_neg houter]

theorem matMul_single_id_right (M : Mat) (g2 : Gate2) (hg2 : g2.to_matrix = mat2 1 0 0 1)
    (qid qc : ℕ) (hq : qid < qc) :
    eqOn (2 ^ qc) (matMul (2 ^ qc) M (GateSingle.to_matrix g2 qid qc)) M := by
  intro i hi j hj
  unfold matMul
  rw [Finset.sum_eq_single j]
  · rw [single_id_apply g2 hg2 qid qc hq j j hj hj, if_pos rfl, mul_one]
  · intro k hk hkj
    rw [single_id_apply g2 hg2 qid qc hq k j (Finset.mem_range.mp hk) hj, if_neg hkj,
      mul_zero]
  · intro hj'
    exact absurd (Finset.mem_range.mpr hj) hj'

theorem fc_index_bounds (qid qc mask : ℕ) (h1 : qid < qc) (h2 : mask < 2 ^ qc)
    (h3 : mask.testBit qid = false) :
    (2 ^ qc - 1 - mask) - 2 ^ qid < 2 ^ qc - 1 - mask ∧ 2 ^ qc - 1 - mask < 2 ^ qc := by
  have hbit : (2 ^ qc - 1 - mask).testBit qid = true := by
    rw [testBit_complement h2]
    simp [h1, h3]
  have hge := Nat.testBit_implies_ge hbit
  have hp1 : 0 < 2 ^ qid := Nat.pos_pow_of_pos qid (by norm_num)
  have hp2 : 0 < 2 ^ qc := Nat.pos_pow_of_pos qc (by norm_num)
  omega

theorem fc_to_matrix_eq (g2 : Gate2) (qid qc mask : ℕ) :
    Gate.to_matrix (.fc g2 qid qc mask) =
      TwoLevelUnitary.full
        ⟨g2.to_matrix, 2 ^ qc, (2 ^ qc - 1 - mask) - 2 ^ qid, 2 ^ qc - 1 - mask⟩ := rfl

theorem fc_id_matrix (g2 : Gate2) (hg2 : g2.to_matrix = mat2 1 0 0 1)
    (qid qc mask : ℕ) : Gate.to_matrix (.fc g2 qid qc mask) = matId := by
  rw [fc_to_matrix_eq, hg2, full_id_block]

/-- Adjacent same-footprint fully-controlled rotations compose additively. -/
theorem fc_merge_eq (nm : String) (hnm : nm ∈ rotNames) (x y : ℝ) (qid qc mask : ℕ)
    (h1 : qid < qc) (h2 : mask < 2 ^ qc) (h3 : mask.testBit qid = false) :
    eqOn (2 ^ qc)
      (matMul (2 ^ qc) (Gate.to_matrix (.fc ⟨nm, y⟩ qid qc mask))
        (Gate.to_matrix (.fc ⟨nm, x⟩ qid qc mask)))
      (Gate.to_matrix (.fc ⟨nm, x + y⟩ qid qc mask)) := by
  obtain ⟨hlt, hlt2⟩ := fc_index_bounds qid qc mask h1 h2 h3
  have h := full_mul_full (Gate2.to_matrix ⟨nm, y⟩) (Gate2.to_matrix ⟨nm, x⟩)
    (2 ^ qc) _ _ hlt hlt2
  rw [gate2_rot_mul nm hnm x y] at h
  rw [fc_to_matrix_eq, fc_to_matrix_eq, fc_to_matrix_eq]
  exact h

/-- Adjacent identical fully-controlled bit-flips compose to the identity. -/
theorem fc_xpair_eq (x y : ℝ) (qid qc mask : ℕ)
    (h1 : qid < qc) (h2 : mask < 2 ^ qc) (h3 : mask.testBit qid = false) :
    eqOn (2 ^ qc)
      (matMul (2 ^ qc) (Gate.to_matrix (.fc ⟨"X", y⟩ qid qc mask))
        (Gate.to_matrix (.fc ⟨"X", x⟩ qid qc mask)))
      matId := by
  obtain ⟨hlt, hlt2⟩ := fc_index_bounds qid qc mask h1 h2 h3
  have h := full_mul_full (Gate2.to_matrix ⟨"X", y⟩) (Gate2.to_matrix ⟨"X", x⟩)
    (2 ^ qc) _ _ hlt hlt2
  rw [gate2_X_mul x y, full_id_block] at h
  rw [fc_to_matrix_eq, fc_to_matrix_eq]
  exact h

theorem seqMatrix_nil (n : ℕ) : seqMatrix n [] = matId := rfl

theorem seqMatrix_cons (n : ℕ) (g : Gate) (gs : List Gate) :
    seqMatrix n (g :: gs) = matMul n (seqMatrix n gs) g.to_matrix := rfl

theorem optimize_gates_nil : optimize_gates [] = [] := rfl

theorem optimize_gates_cons (g : Gate) (rest : List Gate) :
    optimize_gates (g :: rest) =
      if isIdGate g then optimize_gates rest
      else optStep g (optimize_gates rest) := rfl

theorem optStep_nil (g : Gate) : optStep g [] = [g] := rfl

theorem optStep_cons (g g' : Gate) (tail : List Gate) :
    optStep g (g' :: tail) =
      if isXPair g g' then tail
      else if mergeableRot g g' then
        if isIdGate (mergeRot g g') then tail else mergeRot g g' :: tail
      else g :: g' :: tail := rfl

theorem optimize_gates_length : ∀ gs : List Gate,
    (optimize_gates gs).length ≤ gs.length := by
  intro gs
  induction gs with
  | nil => rw [optimize_gates_nil]
  | cons g rest ih =>
    rw [optimize_gates_cons]
    by_cases hid : isIdGate g
    · rw [if_pos hid]
      exact Nat.le_succ_of_le ih
    · rw [if_neg hid]
      cases hr : optimize_gates rest with
      | nil =>
        rw [optStep_nil]
        simp only [List.length_cons, List.length_singleton, List.length_nil]
        omega
      | cons g' tail =>
        rw [hr] at ih
        rw [optStep_cons]
        simp only [List.length_cons] at ih
        by_cases hx : isXPair g g'
        · rw [if_pos hx]
          simp only [List.length_cons]
          omega
        · rw [if_neg hx]
          by_cases hm : mergeableRot g g'
          · rw [if_pos hm]
            by_cases hmid : isIdGate (mergeRot g g')
            · rw [if_pos hmid]
              simp only [List.length_cons]
              omega
            · rw [if_neg hmid]
              simp only [List.length_cons]
              omega
          · rw [if_neg hm]
            simp only [List.length_cons]
            omega

/-- The identity gates recognized by the optimizer have the identity matrix
effect when multiplied on the right, on the `2^n` window. -/
theorem id_gate_cancel {n : ℕ} {g : Gate} (hid : isIdGate g) (hwf : wfGate n g)
    (M : Mat) : eqOn (2 ^ n) (matMul (2 ^ n) M g.to_matrix) M := by
  obtain ⟨hname, harg⟩ := hid
  cases g with
  | single g2 qid qc =>
    obtain ⟨rfl, hqid⟩ := hwf
    have hg2 : g2.to_matrix = mat2 1 0 0 1 := by
      have : g2 = ⟨g2.name, 0⟩ := by
        cases g2
        simp only [Gate.gate2] at harg
        rw [harg]
      rw [this]
      exact gate2_rot_zero g2.name hname
    exact matMul_single_id_right M g2 hg2 qid _ hqid
  | fc g2 qid qc mask =>
    obtain ⟨rfl, hqid, -⟩ := hwf
    have hg2 : g2.to_matrix = mat2 1 0 0 1 := by
      have : g2 = ⟨g2.name, 0⟩ := by
        cases g2
        simp only [Gate.gate2] at harg
        rw [harg]
      rw [this]
      exact gate2_rot_zero g2.name hname
    rw [fc_id_matrix g2 hg2 qid _ mask]
    exact matMul_matId_right _ M

/-- Matrix-level soundness of the optimizer pass. -/
theorem optimize_gates_sound (n : ℕ) : ∀ gs : List Gate,
    (∀ g ∈ gs, wfGate n g) →
    eqOn (2 ^ n) (seqMatrix (2 ^ n) (optimize_gates gs)) (seqMatrix (2 ^ n) gs) := by
  intro gs
  induction gs with
  | nil =>
    intro _
    rw [optimize_gates_nil]
    exact eqOn_refl _ _
  | cons g rest ih =>
    intro hwf
    have hg := hwf g (List.mem_cons_self g rest)
    have hrest := fun g' hg' => hwf g' (List.mem_cons_of_mem g hg')
    have ih' := ih hrest
    rw [optimize_gates_cons, seqMatrix_cons]
    by_cases hid : isIdGate g
    · rw [if_pos hid]
      exact eqOn_trans ih' (eqOn_symm (id_gate_cancel hid hg (seqMatrix (2 ^ n) rest)))
    · rw [if_neg hid]
      cases hr : optimize_gates rest with
      | nil =>
        rw [hr] at ih'
        rw [optStep_nil, seqMatrix_cons, seqMatrix_nil]
        exact matMul_congr_left g.to_matrix ih'
      | cons g' tail =>
        rw [hr] at ih'
        rw [optStep_cons]
        have hsplit : eqOn (2 ^ n) (matMul (2 ^ n) (seqMatrix (2 ^ n) rest) g.to_matrix)
            (matMul (2 ^ n) (seqMatrix (2 ^ n) tail)
              (matMul (2 ^ n) g'.to_matrix g.to_matrix)) := by
          have h1 : eqOn (2 ^ n) (matMul (2 ^ n) (seqMatrix (2 ^ n) rest) g.to_matrix)
              (matMul (2 ^ n) (seqMatrix (2 ^ n) (g' :: tail)) g.to_matrix) :=
            matMul_congr_left g.to_matrix (eqOn_symm ih')
          rw [seqMatrix_cons, matMul_assoc] at h1
          exact h1
        by_cases hx : isXPair g g'
        · rw [if_pos hx]
          cases g with
          | single g2 qid qc => exact hx.elim
          | fc g2 qid qc mask =>
            cases g' with
            | single g2' qid' qc' => exact hx.elim
            | fc g2' qid' qc' mask' =>
              cases g2 with
              | mk nm ar =>
                cases g2' with
                | mk nm' ar' =>
                  obtain ⟨hn1, hn2, hq, hc, hm⟩ := hx
                  obtain ⟨rfl, hqid, hmask, hbit⟩ := hg
                  subst hn1
                  subst hn2
                  subst hq
                  subst hc
                  subst hm
                  have hxp := fc_xpair_eq ar ar' qid qc mask hqid hmask hbit
                  have h2 := matMul_congr_right (seqMatrix (2 ^ qc) tail) hxp
                  have h3 := matMul_matId_right (2 ^ qc) (seqMatrix (2 ^ qc) tail)
                  exact eqOn_symm (eqOn_trans hsplit (eqOn_trans h2 h3))
        · rw [if_neg hx]
          by_cases hm : mergeableRot g g'
          · rw [if_pos hm]
            cases g with
            | single g2 qid qc => exact hm.elim
            | fc g2 qid qc mask =>
              cases g' with
              | single g2' qid' qc' => exact hm.elim
              | fc g2' qid' qc' mask' =>
                cases g2 with
                | mk nm ar =>
                  cases g2' with
                  | mk nm' ar' =>
                    obtain ⟨hn1, hrot, hq, hc, hmm⟩ := hm
                    obtain ⟨rfl, hqid, hmask, hbit⟩ := hg
                    subst hn1
                    subst hq
                    subst hc
                    subst hmm
                    have hmerge := fc_merge_eq nm hrot ar ar' qid qc mask hqid hmask hbit
                    have h2 := matMul_congr_right (seqMatrix (2 ^ qc) tail) hmerge
                    by_cases hmid : isIdGate (mergeRot (.fc ⟨nm, ar⟩ qid qc mask)
                        (.fc ⟨nm, ar'⟩ qid qc mask))
                    · rw [if_pos hmid]
                      have hwfm : wfGate qc (mergeRot (.fc ⟨nm, ar⟩ qid qc mask)
                          (.fc ⟨nm, ar'⟩ qid qc mask)) := ⟨rfl, hqid, hmask, hbit⟩
                      have h3 := id_gate_cancel hmid hwfm (seqMatrix (2 ^ qc) tail)
                      exact eqOn_symm (eqOn_trans hsplit (eqOn_trans h2 h3))
                    · rw [if_neg hmid, seqMatrix_cons]
                      exact eqOn_symm (eqOn_trans hsplit h2)
          · rw [if_neg hm, seqMatrix_cons]
            exact matMul_congr_left g.to_matrix ih'

/-- **C8**: for every well-formed gate sequence on `n` qubits, the optimized
sequence composes to the same matrix on the full register (exact equality on
the `2^n × 2^n` window) and is no longer than the input sequence. -/
theorem c8_optimize_gates_safe (n : ℕ) (gs : List Gate)
    (hwf : ∀ g ∈ gs, wfGate n g) :
    eqOn (2 ^ n) (seqMatrix (2 ^ n) (optimize_gates gs)) (seqMatrix (2 ^ n) gs) ∧
      (optimize_gates gs).length ≤ gs.length :=
  ⟨optimize_gates_sound n gs hwf, optimize_gates_length gs⟩

/-- C8 witness: a concrete two-gate sequence (an `X` pair, which the optimizer
cancels). -/
theorem c8_witness :
    (∀ g ∈ [Gate.fc ⟨"X", 0⟩ 0 1 0, Gate.fc ⟨"X", 0⟩ 0 1 0], wfGate 1 g) ∧
      (eqOn (2 ^ 1)
          (seqMatrix (2 ^ 1) (optimize_gates [Gate.fc ⟨"X", 0⟩ 0 1 0, Gate.fc ⟨"X", 0⟩ 0 1 0]))
          (seqMatrix (2 ^ 1) [Gate.fc ⟨"X", 0⟩ 0 1 0, Gate.fc ⟨"X", 0⟩ 0 1 0]) ∧
        (optimize_gates [Gate.fc ⟨"X", 0⟩ 0 1 0, Gate.fc ⟨"X", 0⟩ 0 1 0]).length ≤
          [Gate.fc ⟨"X", 0⟩ 0 1 0, Gate.fc ⟨"X", 0⟩ 0 1 0].length) := by
  have hwf : ∀ g ∈ [Gate.fc ⟨"X", 0⟩ 0 1 0, Gate.fc ⟨"X", 0⟩ 0 1 0], wfGate 1 g := by
    intro g hg
    rcases List.mem_cons.mp hg with rfl | hg'
    · exact ⟨rfl, by norm_num, by norm_num, by decide⟩
    · rcases List.mem_singleton.mp hg' with rfl
      exact ⟨rfl, by norm_num, by norm_num, by decide⟩
  exact ⟨hwf, c8_optimize_gates_safe 1 _ hwf⟩

/-! ### C1: the full pipeline on `diag(-1, 1, 1, 1)` -/

theorem abs_zero_lt_tol : Complex.abs (0 : ℂ) < tol := by
  rw [map_zero]
  unfold tol
  norm_num

theorem gray_conj_eqOn : eqOn 4 diagNeg (fun i j => diagNeg (grayFn i) (grayFn j)) := by
  intro i hi j hj
  interval_cases i <;> interval_cases j <;> rfl

theorem two_level_decompose_grayDiag4 :
    two_level_decompose 4 (fun i j => diagNeg (grayFn i) (grayFn j)) =
      .ok [⟨fun r c => diagNeg (grayFn (2 + r)) (grayFn (2 + c)), 4, 2, 3⟩] := by
  unfold two_level_decompose
  rw [if_pos (is_unitary_congr gray_conj_eqOn (is_unitary_diagNeg 4))]
  rw [show sweepIndices 4 = [(0, 3), (0, 2), (0, 1), (1, 3), (1, 2)] from by decide]
  rw [sweepRun_cons,
    @elimStep_skip 4 (fun i j => diagNeg (grayFn i) (grayFn j), []) (0, 3) abs_zero_lt_tol,
    exCase_ok, sweepRun_cons,
    @elimStep_skip 4 (fun i j => diagNeg (grayFn i) (grayFn j), []) (0, 2) abs_zero_lt_tol,
    exCase_ok, sweepRun_cons,
    @elimStep_skip 4 (fun i j => diagNeg (grayFn i) (grayFn j), []) (0, 1) abs_zero_lt_tol,
    exCase_ok, sweepRun_cons,
    @elimStep_skip 4 (fun i j => diagNeg (grayFn i) (grayFn j), []) (1, 3) abs_zero_lt_tol,
    exCase_ok, sweepRun_cons,
    @elimStep_skip 4 (fun i j => diagNeg (grayFn i) (grayFn j), []) (1, 2) abs_zero_lt_tol,
    exCase_ok, sweepRun_nil, exCase_ok]
  unfold mkTLU
  rw [if_pos (show 4 - 2 < 4 - 1 ∧ 4 - 1 < 4 by norm_num), exCase_ok]
  rfl

theorem gray_diagNeg4 :
    two_level_decompose_gray (4, 4) diagNeg =
      .ok [⟨fun i j => diagNeg (grayFn (2 + (1 - i))) (grayFn (2 + (1 - j))), 4, 2, 3⟩] := by
  simp only [two_level_decompose_gray]
  have hp : is_power_of_two 4 := ⟨2, rfl⟩
  rw [if_pos hp, if_pos trivial, if_pos (is_unitary_diagNeg 4),
    two_level_decompose_grayDiag4, exCase_ok]
  rfl

theorem to_fc_gates_identity_factor :
    TwoLevelUnitary.to_fc_gates
        ⟨fun i j => diagNeg (grayFn (2 + (1 - i))) (grayFn (2 + (1 - j))), 4, 2, 3⟩ =
      [.fc ⟨"Rz", 0⟩ 0 2 0, .fc ⟨"Ry", 0⟩ 0 2 0, .fc ⟨"Rz", 0⟩ 0 2 0,
        .fc ⟨"Rz", 0⟩ 0 2 0, .fc ⟨"R1", 0⟩ 0 2 0] := by
  have h00 : (⟨fun i j => diagNeg (grayFn (2 + (1 - i))) (grayFn (2 + (1 - j))), 4, 2, 3⟩ :
      TwoLevelUnitary).sub 0 0 = 1 := rfl
  have h01 : (⟨fun i j => diagNeg (grayFn (2 + (1 - i))) (grayFn (2 + (1 - j))), 4, 2, 3⟩ :
      TwoLevelUnitary).sub 0 1 = 0 := rfl
  have h10 : (⟨fun i j => diagNeg (grayFn (2 + (1 - i))) (grayFn (2 + (1 - j))), 4, 2, 3⟩ :
      TwoLevelUnitary).sub 1 0 = 0 := rfl
  have h11 : (⟨fun i j => diagNeg (grayFn (2 + (1 - i))) (grayFn (2 + (1 - j))), 4, 2, 3⟩ :
      TwoLevelUnitary).sub 1 1 = 1 := rfl
  unfold TwoLevelUnitary.to_fc_gates u2_to_gate2s det2
  rw [h00, h01, h10, h11]
  rw [show (1 : ℂ) * 1 - 0 * 0 = 1 by ring]
  rw [Complex.arg_one, Complex.arg_zero, map_one, Real.arccos_one]
  norm_num
  constructor
  · rw [show 2 ^^^ 3 = 1 from rfl]
    simp [Nat.log2]
  · simp [Nat.log2]

theorem optimize_identity_gates :
    optimize_gates [Gate.fc ⟨"Rz", 0⟩ 0 2 0, .fc ⟨"Ry", 0⟩ 0 2 0, .fc ⟨"Rz", 0⟩ 0 2 0,
      .fc ⟨"Rz", 0⟩ 0 2 0, .fc ⟨"R1", 0⟩ 0 2 0] = [] := by
  have hRz : isIdGate (Gate.fc ⟨"Rz", 0⟩ 0 2 0) := ⟨by decide, rfl⟩
  have hRy : isIdGate (Gate.fc ⟨"Ry", 0⟩ 0 2 0) := ⟨by decide, rfl⟩
  have hR1 : isIdGate (Gate.fc ⟨"R1", 0⟩ 0 2 0) := ⟨by decide, rfl⟩
  rw [optimize_gates_cons, if_pos hRz, optimize_gates_cons, if_pos hRy,
    optimize_gates_cons, if_pos hRz, optimize_gates_cons, if_pos hRz,
    optimize_gates_cons, if_pos hR1, optimize_gates_nil]

/-- **C1 (code bug)**: `diag(-1, 1, 1, 1)` is unitary, yet `matrix_to_gates`
(without the 4×4 shortcut) returns the empty gate sequence, whose composition
is the identity — off by 2 at entry `(0, 0)`, far outside the claimed `1e-9`
equivalence.  The root cause is the skipped-row phase loss of
`two_level_decompose` (see C2). -/
theorem c1_matrix_to_gates_failing :
    is_unitary 4 diagNeg ∧
      matrix_to_gates (4, 4) diagNeg = .ok [] ∧
      tol < Complex.abs (seqMatrix (2 ^ 2) [] 0 0 - diagNeg 0 0) := by
  refine ⟨is_unitary_diagNeg 4, ?_, ?_⟩
  · unfold matrix_to_gates
    rw [gray_diagNeg4, exCase_ok]
    simp only [List.map_cons, List.map_nil, List.flatten_cons, List.flatten_nil,
      List.append_nil]
    rw [to_fc_gates_identity_factor, optimize_identity_gates]
  · rw [seqMatrix_nil, show matId 0 0 = 1 from rfl, show diagNeg 0 0 = -1 from rfl,
      show (1 : ℂ) - -1 = ((2 : ℝ) : ℂ) by norm_num, Complex.abs_ofReal]
    unfold tol
    norm_num

end QuantumDecomp
